import Mathlib

set_option maxRecDepth 2000

/-!
Verification of the detoxify scoring core (lexicon loading/matching,
heuristic scorer, policy threshold evaluation) against its specification.

The Python source is shallowly embedded: dictionaries become association
lists (`List (String × _)`) in insertion order, Python floats become `ℚ`,
and fallible operations return `Option`/`Except`.  The transcendental
ramp `1 - exp(-k·max(0,x))` of `model.py` is the one non-algebraic
ingredient; it enters every theorem as an explicit function parameter
`ramp : ℚ → ℚ` together with exactly the facts the source guarantees for
it (range in `[0,1]`, monotonicity), so every statement quantifies over
all functions the real ramp could be.
-/

/-- First-match association-list lookup, modelling Python `dict.get` for
dictionaries (whose keys are unique). -/
def dget {α : Type} (l : List (String × α)) (k : String) : Option α :=
  (l.find? (fun p => p.1 == k)).map (·.2)

/-- Python `dict.get(k, d)`. -/
def dgetD {α : Type} (l : List (String × α)) (k : String) (d : α) : α :=
  (dget l k).getD d

/-- One per-label entry of the detail map built by `decide_action`
(`{'score': v, 'threshold': thr, 'over': flag}` in `policy.py`). -/
structure Detail where
  score : ℚ
  threshold : ℚ
  over : Bool
deriving Repr, DecidableEq

/-- `DEFAULTS` of `policy.py`. -/
def DEFAULTS : List (String × ℚ) :=
  [("toxicity", 0.50), ("severe_toxicity", 0.40), ("insult", 0.45),
   ("threat", 0.35), ("obscene", 0.45), ("identity_attack", 0.35)]

/-- The threshold `decide_action` actually uses for label `k`:
`get_threshold(gid, cid, k) or DEFAULTS.get(k, 0.5)`.  Python's `or`
falls through to the default both when the lookup returns `None` and
when it returns the falsy float `0.0`. -/
def policyThreshold (lookup : String → String → String → Option ℚ)
    (gid cid k : String) : ℚ :=
  match lookup gid cid k with
  | some t => if t = 0 then dgetD DEFAULTS k 0.5 else t
  | none => dgetD DEFAULTS k 0.5

/-- `decide_action` of `policy.py`.  The stored-threshold collaborator
(`storage.get_threshold`) is passed in as `lookup`; `scores` is the label
score dict in insertion order. -/
def decide_action (lookup : String → String → String → Option ℚ)
    (gid cid : String) (scores : List (String × ℚ)) :
    Bool × List (String × Detail) :=
  scores.foldl
    (fun (acc : Bool × List (String × Detail)) kv =>
      let thr := policyThreshold lookup gid cid kv.1
      let flag : Bool := thr ≤ kv.2
      (acc.1 || flag, acc.2 ++ [(kv.1, ⟨kv.2, thr, flag⟩)]))
    (false, [])

/-- A lookup collaborator with no stored overrides at all. -/
def noOverrides : String → String → String → Option ℚ := fun _ _ _ => none

section PolicyLemmas

theorem decide_action_snd (lookup : String → String → String → Option ℚ)
    (gid cid : String) (scores : List (String × ℚ)) :
    (decide_action lookup gid cid scores).2 =
      scores.map (fun kv =>
        let thr := policyThreshold lookup gid cid kv.1
        (kv.1, ⟨kv.2, thr, decide (thr ≤ kv.2)⟩)) := by
  have h : ∀ (init : Bool × List (String × Detail)),
      (scores.foldl
        (fun (acc : Bool × List (String × Detail)) kv =>
          let thr := policyThreshold lookup gid cid kv.1
          let flag : Bool := thr ≤ kv.2
          (acc.1 || flag, acc.2 ++ [(kv.1, ⟨kv.2, thr, flag⟩)])) init).2 =
      init.2 ++ scores.map (fun kv =>
        let thr := policyThreshold lookup gid cid kv.1
        (kv.1, ⟨kv.2, thr, decide (thr ≤ kv.2)⟩)) := by
    induction scores with
    | nil => intro init; simp
    | cons hd tl ih =>
        intro init
        simp only [List.foldl_cons, List.map_cons]
        rw [ih]
        simp
  simpa [decide_action] using h (false, [])

theorem decide_action_fst (lookup : String → String → String → Option ℚ)
    (gid cid : String) (scores : List (String × ℚ)) :
    (decide_action lookup gid cid scores).1 =
      scores.any (fun kv => policyThreshold lookup gid cid kv.1 ≤ kv.2) := by
  have h : ∀ (init : Bool × List (String × Detail)),
      (scores.foldl
        (fun (acc : Bool × List (String × Detail)) kv =>
          let thr := policyThreshold lookup gid cid kv.1
          let flag : Bool := thr ≤ kv.2
          (acc.1 || flag, acc.2 ++ [(kv.1, ⟨kv.2, thr, flag⟩)])) init).1 =
      (init.1 || scores.any (fun kv =>
        policyThreshold lookup gid cid kv.1 ≤ kv.2)) := by
    induction scores with
    | nil => intro init; simp
    | cons hd tl ih =>
        intro init
        simp only [List.foldl_cons, List.any_cons]
        rw [ih]
        simp [Bool.or_assoc]
  simpa [decide_action] using h (false, [])

end PolicyLemmas

/-- Six-label score map with toxicity 0.3 and a stored override of 0.0
configured for toxicity — the probe configuration for claim C1. -/
def scoresTox03 : List (String × ℚ) :=
  [("toxicity", 0.3), ("severe_toxicity", 0), ("insult", 0),
   ("threat", 0), ("obscene", 0), ("identity_attack", 0)]

/-- A lookup collaborator storing the override 0.0 for toxicity only. -/
def zeroToxOverride : String → String → String → Option ℚ :=
  fun _ _ l => if l == "toxicity" then some 0 else none

/-- C1, counterexample: with an override equal to 0.0 stored for
(guild, channel, toxicity), `decide_action` does **not** use it — the
detail row for toxicity carries the default threshold 0.50 (and is not
over at score 0.3), because Python's `or` treats the falsy float `0.0`
like a missing override. -/
theorem C1_counterexample :
    zeroToxOverride "g" "c" "toxicity" = some 0 ∧
    dget (decide_action zeroToxOverride "g" "c" scoresTox03).2 "toxicity" =
      some ⟨0.3, 0.5, false⟩ ∧ (0.5 : ℚ) ≠ 0 := by
  refine ⟨rfl, ?_, by norm_num⟩
  with_unfolding_all decide

/-- C1 (amended): for each label of the score map, `decide_action` uses a
stored override as the threshold whenever one is configured **and it is
nonzero**; when no override is configured, or the stored override equals
0.0, it uses the fixed per-label default from `DEFAULTS`. -/
theorem C1_amended_threshold_selection
    (lookup : String → String → String → Option ℚ) (gid cid : String)
    (scores : List (String × ℚ)) (k : String) (v : ℚ)
    (hk : (k, v) ∈ scores) :
    ∃ d : Detail, (k, d) ∈ (decide_action lookup gid cid scores).2 ∧
      d.score = v ∧
      (∀ t : ℚ, lookup gid cid k = some t → t ≠ 0 → d.threshold = t) ∧
      (lookup gid cid k = none → d.threshold = dgetD DEFAULTS k 0.5) ∧
      (lookup gid cid k = some 0 → d.threshold = dgetD DEFAULTS k 0.5) := by
  refine ⟨⟨v, policyThreshold lookup gid cid k,
    decide (policyThreshold lookup gid cid k ≤ v)⟩, ?_, rfl, ?_, ?_, ?_⟩
  · rw [decide_action_snd]
    exact List.mem_map.mpr ⟨(k, v), hk, rfl⟩
  · intro t ht htne
    simp [policyThreshold, ht, htne]
  · intro ht
    simp [policyThreshold, ht]
  · intro ht
    simp [policyThreshold, ht]

/-- Witness for C1's amended theorem: with an override 0.2 configured for
insult, the detail row for insult indeed carries threshold 0.2. -/
theorem C1_amended_witness :
    ∃ d : Detail,
      ("insult", d) ∈ (decide_action (fun _ _ l => if l == "insult" then some 0.2 else none)
        "g" "c" scoresTox03).2 ∧ d.threshold = 0.2 := by
  obtain ⟨d, hmem, _, hsome, _, _⟩ :=
    C1_amended_threshold_selection
      (fun _ _ l => if l == "insult" then some 0.2 else none)
      "g" "c" scoresTox03 "insult" 0 (by decide)
  exact ⟨d, hmem, hsome 0.2 rfl (by norm_num)⟩

/-- Six-label score map with toxicity 0.5 and the other labels 0. -/
def scoresTox05 : List (String × ℚ) :=
  [("toxicity", 0.5), ("severe_toxicity", 0), ("insult", 0),
   ("threat", 0), ("obscene", 0), ("identity_attack", 0)]

/-- Six-label score map with toxicity 0.49 and the other labels 0. -/
def scoresTox049 : List (String × ℚ) :=
  [("toxicity", 0.49), ("severe_toxicity", 0), ("insult", 0),
   ("threat", 0), ("obscene", 0), ("identity_attack", 0)]

/-- C8: a label is over exactly when its score is ≥ its threshold (the
comparison is inclusive), `triggered` is the logical OR of the per-label
over flags; and with no overrides the map with toxicity 0.5 (others 0)
triggers while the same map with toxicity 0.49 does not. -/
theorem C8_over_inclusive_or_trigger :
    (∀ (lookup : String → String → String → Option ℚ) (gid cid : String)
        (scores : List (String × ℚ)) (p : String × Detail),
        p ∈ (decide_action lookup gid cid scores).2 →
        (p.2.over = true ↔ p.2.threshold ≤ p.2.score)) ∧
    (∀ (lookup : String → String → String → Option ℚ) (gid cid : String)
        (scores : List (String × ℚ)),
        ((decide_action lookup gid cid scores).1 = true ↔
          ∃ p ∈ (decide_action lookup gid cid scores).2, p.2.over = true)) ∧
    (decide_action noOverrides "g" "c" scoresTox05).1 = true ∧
    (decide_action noOverrides "g" "c" scoresTox049).1 = false := by
  refine ⟨?_, ?_, by with_unfolding_all decide, by with_unfolding_all decide⟩
  · intro lookup gid cid scores p hp
    rw [decide_action_snd] at hp
    obtain ⟨kv, _, hkv⟩ := List.mem_map.mp hp
    subst hkv
    simp
  · intro lookup gid cid scores
    rw [decide_action_fst, decide_action_snd]
    simp only [List.any_eq_true, List.mem_map]
    constructor
    · rintro ⟨kv, hkv, hle⟩
      exact ⟨_, ⟨kv, hkv, rfl⟩, by simpa using of_decide_eq_true hle⟩
    · rintro ⟨p, ⟨kv, hkv, rfl⟩, hover⟩
      exact ⟨kv, hkv, by simpa using hover⟩

/-- Witness for C8: the toxicity row of the 0.5 map is over at the
inclusive boundary. -/
theorem C8_witness :
    ∃ p : String × Detail,
      p ∈ (decide_action noOverrides "g" "c" scoresTox05).2 ∧
      p.2.over = true ∧ p.2.threshold ≤ p.2.score := by
  refine ⟨("toxicity", ⟨0.5, 0.5, true⟩), by with_unfolding_all decide, rfl, ?_⟩
  exact (C8_over_inclusive_or_trigger.1 noOverrides "g" "c" scoresTox05
    ("toxicity", ⟨0.5, 0.5, true⟩) (by with_unfolding_all decide)).mp rfl

/-! ### Lexicon loading (`lexicon_model.py`, `Lexicon.__init__`) -/

/-- Whitespace characters recognised by the embedding (the ASCII subset
of Python's `\s` / `str.strip`). -/
def isPySpace (c : Char) : Bool :=
  c == ' ' || c == '\t' || c == '\n' || c == '\r' || c == '\x0b' || c == '\x0c'

/-- A parsed JSON value, the result of `json.load` (so object keys are
strings and duplicate keys have already been collapsed). -/
inductive Json where
  | null
  | jbool (b : Bool)
  | num (q : ℚ)
  | str (s : String)
  | arr (elems : List Json)
  | obj (fields : List (String × Json))

/-- Digits of a numeral. -/
def digitsVal : List Char → Option ℕ
  | [] => some 0
  | c :: cs =>
      if c.isDigit then
        (digitsVal cs).map (fun n => n * 10 + (c.toNat - '0'.toNat))
      else none

/-- Value of a nonempty digit run, most significant first. -/
def digitsNum (cs : List Char) : Option ℕ :=
  if cs.isEmpty then none
  else cs.foldl (fun acc c =>
    acc.bind (fun n => if c.isDigit then some (n * 10 + (c.toNat - '0'.toNat)) else none))
    (some 0)

/-- `float(s)` on a string: strip whitespace, optional sign, decimal
digits with optional fraction and exponent.  (Python additionally
accepts `inf`/`nan` spellings and digit-group underscores; those forms
are not needed by any claim and are rejected here.) -/
def parsePyFloat (s : String) : Option ℚ :=
  let cs := (((s.data.dropWhile (isPySpace ·)).reverse.dropWhile (isPySpace ·)).reverse)
  let (sign, cs) : ℚ × List Char :=
    match cs with
    | '+' :: rest => (1, rest)
    | '-' :: rest => (-1, rest)
    | rest => (1, rest)
  let mantissa := cs.takeWhile (fun c => c != 'e' && c != 'E')
  let expPart := cs.dropWhile (fun c => c != 'e' && c != 'E')
  let intPart := mantissa.takeWhile (· != '.')
  let fracTail := mantissa.dropWhile (· != '.')
  let value : Option ℚ :=
    match fracTail with
    | [] => (digitsNum intPart).map (fun n => (n : ℚ))
    | '.' :: frac =>
        if intPart.isEmpty && frac.isEmpty then none
        else if frac.all (·.isDigit) && intPart.all (·.isDigit) then
          (digitsNum (intPart ++ frac)).map (fun n => (n : ℚ) / (10 : ℚ) ^ frac.length)
        else none
    | _ => none
  match expPart with
  | [] => value.map (sign * ·)
  | _ :: etail =>
      let (esign, edigits) : ℤ × List Char :=
        match etail with
        | '+' :: rest => (1, rest)
        | '-' :: rest => (-1, rest)
        | rest => (1, rest)
      match digitsNum edigits, value with
      | some e, some v => some (sign * v * (10 : ℚ) ^ (esign * (e : ℤ)))
      | _, _ => none

/-- `float(v)` on a JSON value: numbers pass through, booleans become
0/1, numeric strings are parsed, everything else raises. -/
def pyFloat : Json → Option ℚ
  | .num q => some q
  | .jbool b => some (if b then 1 else 0)
  | .str s => parsePyFloat s
  | _ => none

/-- `[c.upper() for c in v]`: a JSON list of strings uppercases its
elements, a string iterates its characters, a dict iterates its keys;
anything else raises. -/
def pyUpperList : Json → Option (List String)
  | .arr l => l.mapM (fun j => match j with | .str s => some s.toUpper | _ => none)
  | .str s => some (s.data.map (fun c => (String.mk [c]).toUpper))
  | .obj l => some (l.map (fun p => p.1.toUpper))
  | _ => none

/-- Split into maximal runs of characters not satisfying `p`, dropping
empty runs — `[t for t in re.split(..) if t]`. -/
def splitRunsAux (p : Char → Bool) : List Char → List Char → List (List Char)
  | cur, [] => if cur.isEmpty then [] else [cur.reverse]
  | cur, c :: rest =>
      if p c then
        if cur.isEmpty then splitRunsAux p [] rest
        else cur.reverse :: splitRunsAux p [] rest
      else splitRunsAux p (c :: cur) rest

/-- `re.split(r"[\s\-]+", term)` with empty pieces removed. -/
def splitTerm (term : String) : List String :=
  (splitRunsAux (fun c => isPySpace c || c == '-') [] term.data).map String.mk

/-- Whether a term is treated as a phrase: `" " in term or "-" in term`. -/
def isPhraseTerm (term : String) : Bool :=
  term.data.any (fun c => c == ' ' || c == '-')

/-- The in-memory lexicon: `weights`, `categories`, and the partition of
the weight keys into `phrases` (token sequence, original term) and
single `words`, plus `max_phrase_len`. -/
structure Lexicon where
  weights : List (String × ℚ)
  categories : List (String × List String)
  phrases : List (List String × String)
  words : List String
  max_phrase_len : ℕ
deriving Repr, DecidableEq

/-- One step of the phrase/word partition loop of `Lexicon.__init__`. -/
def partitionStep (acc : List (List String × String) × List String × ℕ)
    (term : String) : List (List String × String) × List String × ℕ :=
  if isPhraseTerm term then
    let toks := splitTerm term
    if toks.isEmpty then acc
    else (acc.1 ++ [(toks, term)], acc.2.1, max acc.2.2 toks.length)
  else (acc.1, acc.2.1 ++ [term], acc.2.2)

/-- Build a `Lexicon` from already-normalised `weights` and `categories`
maps (the tail of `Lexicon.__init__` after the two dict comprehensions). -/
def Lexicon.ofData (W : List (String × ℚ)) (C : List (String × List String)) :
    Lexicon :=
  let r := (W.map (·.1)).foldl partitionStep ([], [], 1)
  ⟨W, C, r.1, r.2.1, r.2.2⟩

/-- Errors of `Lexicon.__init__`: the artifact file is absent
(`FileNotFoundError`), or building the maps raised
(`TypeError`/`ValueError`/`AttributeError` — the spec's `ParseError`). -/
inductive LoadError where
  | notFound
  | parseError
deriving Repr, DecidableEq

/-- Python dict-comprehension key collapsing: a reassigned key keeps its
first position and takes its last value. -/
def dedupKeysLast {α : Type} (l : List (String × α)) : List (String × α) :=
  l.foldl (fun acc p =>
    if acc.any (fun q => q.1 == p.1) then
      acc.map (fun q => if q.1 == p.1 then (q.1, p.2) else q)
    else acc ++ [p]) []


/-- `{k.lower(): float(v) for k, v in ...}` before key collapapsing:
fails as soon as one value cannot be converted. -/
def buildWeights : List (String × Json) → Except LoadError (List (String × ℚ))
  | [] => .ok []
  | p :: rest =>
      match pyFloat p.2 with
      | none => .error .parseError
      | some q =>
          match buildWeights rest with
          | .ok W => .ok ((p.1.toLower, q) :: W)
          | .error e => .error e

/-- `{k.lower(): [c.upper() for c in v] for k, v in ...}` before key
collapsing. -/
def buildCategories : List (String × Json) →
    Except LoadError (List (String × List String))
  | [] => .ok []
  | p :: rest =>
      match pyUpperList p.2 with
      | none => .error .parseError
      | some cats =>
          match buildCategories rest with
          | .ok C => .ok ((p.1.toLower, cats) :: C)
          | .error e => .error e

/-- `Lexicon.__init__(path)`: `file` is `none` when no file exists at
`path` (→ `FileNotFoundError`), otherwise the parsed JSON content.
`data.get("weights", {})` / `data.get("categories", {})` silently
substitute empty dicts for missing keys; iterating `.items()` of a
non-dict, or a bad weight/category value, raises (`parseError`). -/
def Lexicon.load (file : Option Json) : Except LoadError Lexicon :=
  match file with
  | none => .error .notFound
  | some (.obj fields) =>
      match (dget fields "weights").getD (.obj []),
            (dget fields "categories").getD (.obj []) with
      | .obj wf, .obj cf =>
          match buildWeights wf, buildCategories cf with
          | .ok W, .ok C =>
              .ok (Lexicon.ofData (dedupKeysLast W) (dedupKeysLast C))
          | _, _ => .error .parseError
      | _, _ => .error .parseError
  | some _ => .error .parseError

/-- Decidable equality for `Except` results. -/
instance {e a : Type} [DecidableEq e] [DecidableEq a] :
    DecidableEq (Except e a) := fun x y =>
  match x, y with
  | .error u, .error v =>
      if h : u = v then .isTrue (by rw [h]) else .isFalse (by simp [h])
  | .ok u, .ok v =>
      if h : u = v then .isTrue (by rw [h]) else .isFalse (by simp [h])
  | .error _, .ok _ => .isFalse (by simp)
  | .ok _, .error _ => .isFalse (by simp)

/-- Every successfully loaded lexicon is `Lexicon.ofData` of some maps. -/
theorem load_ok_shape (file : Option Json) (lex : Lexicon)
    (h : Lexicon.load file = .ok lex) :
    ∃ W C, lex = Lexicon.ofData W C := by
  unfold Lexicon.load at h
  split at h
  · exact absurd h (by simp)
  · split at h
    · split at h
      · rename_i W C _ _
        exact ⟨dedupKeysLast W, dedupKeysLast C, by
          simpa using h.symm⟩
      · exact absurd h (by simp)
    · exact absurd h (by simp)
  · exact absurd h (by simp)

/-- The partition loop only ever appends nonempty token sequences. -/
theorem ofData_phrases_nonempty (W : List (String × ℚ))
    (C : List (String × List String)) (p : List String × String)
    (hp : p ∈ (Lexicon.ofData W C).phrases) : 1 ≤ p.1.length := by
  have main : ∀ (terms : List String)
      (init : List (List String × String) × List String × ℕ),
      (∀ q ∈ init.1, 1 ≤ q.1.length) →
      ∀ q ∈ (terms.foldl partitionStep init).1, 1 ≤ q.1.length := by
    intro terms
    induction terms with
    | nil => intro init hinit q hq; exact hinit q hq
    | cons t rest ih =>
        intro init hinit q hq
        refine ih (partitionStep init t) ?_ q hq
        intro r hr
        unfold partitionStep at hr
        cases hphr : isPhraseTerm t with
        | false => rw [hphr] at hr; simp only [Bool.false_eq_true, if_false] at hr
                   exact hinit r hr
        | true =>
            rw [hphr] at hr; simp only [if_true] at hr
            cases hemp : (splitTerm t).isEmpty with
            | true => rw [hemp] at hr; simp only [if_true] at hr; exact hinit r hr
            | false =>
                rw [hemp] at hr
                simp only [Bool.false_eq_true, if_false, List.mem_append,
                  List.mem_singleton] at hr
                rcases hr with hr | hr
                · exact hinit r hr
                · subst hr
                  have hne : splitTerm t ≠ [] := by
                    intro hnil; rw [hnil] at hemp; simp at hemp
                  simpa [Nat.one_le_iff_ne_zero, List.length_eq_zero] using hne
  have hp' : p ∈ ((W.map (fun x => x.1)).foldl partitionStep ([], [], 1)).1 := hp
  exact main (W.map (fun x => x.1)) ([], [], 1) (by simp) p hp'

/-- C7, counterexample: the loader accepts the artifact whose only term
is `"kill-"`, yet the resulting phrase list holds the single-token
sequence `["kill"]` — a phrase entry of length 1 < 2.  (`"kill-"`
contains a hyphen, so it is filed as a phrase, but splitting it on
whitespace/hyphen runs yields just one token.) -/
theorem C7_counterexample :
    Lexicon.load (some (.obj [("weights", .obj [("kill-", .num 1)]),
        ("categories", .obj [])])) =
      .ok ⟨[("kill-", 1)], [], [(["kill"], "kill-")], [], 1⟩ ∧
    ((["kill"] : List String).length < 2) := by
  constructor
  · with_unfolding_all decide
  · decide

/-- C7 (amended): after every successful load, every entry of the phrase
list has a **nonempty** token sequence (length ≥ 1; the loader's check is
`if toks:`, so single-token phrases from terms like `"kill-"` are kept,
and only length ≥ 1 is invariant). -/
theorem C7_amended_phrase_tokens_nonempty (file : Option Json) (lex : Lexicon)
    (h : Lexicon.load file = .ok lex) :
    ∀ p ∈ lex.phrases, 1 ≤ p.1.length := by
  obtain ⟨W, C, rfl⟩ := load_ok_shape file lex h
  exact fun p hp => ofData_phrases_nonempty W C p hp

/-- Witness for C7's amended theorem at a two-term artifact and its
single-token phrase entry. -/
theorem C7_amended_witness :
    (["kill"], "kill-") ∈
      (Lexicon.ofData [("kill-", 1), ("big dog", 2)]
        ([] : List (String × List String))).phrases ∧
    1 ≤ (["kill"] : List String).length := by
  have hload : Lexicon.load (some (.obj
      [("weights", .obj [("kill-", .num 1), ("big dog", .num 2)]),
       ("categories", .obj [])])) =
      .ok (Lexicon.ofData [("kill-", 1), ("big dog", 2)] []) := by
    with_unfolding_all decide
  refine ⟨by with_unfolding_all decide, ?_⟩
  exact C7_amended_phrase_tokens_nonempty _ _ hload (["kill"], "kill-")
    (by with_unfolding_all decide)

/-- C2, counterexample: an artifact whose top-level `"weights"` key is
missing is **accepted** — `data.get("weights", {})` silently substitutes
an empty mapping, so a `Lexicon` value is produced where the claim
demands a parse failure. -/
theorem C2_counterexample :
    Lexicon.load (some (.obj [("categories", .obj [])])) =
      .ok ⟨[], [], [], [], 1⟩ := by
  with_unfolding_all decide

/-- C2 (amended): loading fails with the not-found error when the file
is absent, and fails with a parse error when a weight value cannot be
converted to float; but a missing top-level `"weights"` or
`"categories"` key does **not** fail — the key is replaced by an empty
mapping and a `Lexicon` is produced. -/
theorem C2_amended_load_error_behaviour :
    (Lexicon.load none = .error .notFound) ∧
    (∀ fields : List (String × Json), dget fields "weights" = none →
      dget fields "categories" = none →
      Lexicon.load (some (.obj fields)) = .ok (Lexicon.ofData [] [])) ∧
    (∀ (wf : List (String × Json)) (cjson : Json) (term : String) (v : Json),
      (term, v) ∈ wf → pyFloat v = none →
      (Lexicon.load (some (.obj [("weights", .obj wf),
        ("categories", cjson)]))).isOk = false) := by
  refine ⟨rfl, ?_, ?_⟩
  · intro fields hw hc
    have hstep : Lexicon.load (some (.obj fields)) =
        (match (dget fields "weights").getD (.obj []),
               (dget fields "categories").getD (.obj []) with
        | .obj wf, .obj cf =>
            match buildWeights wf, buildCategories cf with
            | .ok W, .ok C =>
                .ok (Lexicon.ofData (dedupKeysLast W) (dedupKeysLast C))
            | _, _ => .error .parseError
        | _, _ => Except.error LoadError.parseError) := rfl
    rw [hstep, hw, hc]
    simp [buildWeights, buildCategories, dedupKeysLast]
  · intro wf cjson term v hmem hfl
    have herr : ∀ (l : List (String × Json)), (term, v) ∈ l →
        ∃ e, buildWeights l = .error e := by
      intro l
      induction l with
      | nil => intro h; simp at h
      | cons hd tl ih =>
          intro h
          rcases List.mem_cons.mp h with heq | htl
          · refine ⟨.parseError, ?_⟩
            have hv : hd.2 = v := by rw [← heq]
            unfold buildWeights
            simp [hv, hfl]
          · unfold buildWeights
            cases hhd : pyFloat hd.2 with
            | none => exact ⟨.parseError, rfl⟩
            | some q =>
                obtain ⟨e, he⟩ := ih htl
                exact ⟨e, by simp [hhd, he]⟩
    obtain ⟨e, he⟩ := herr wf hmem
    cases cjson with
    | obj cl =>
        have hstep : Lexicon.load (some (.obj [("weights", .obj wf),
            ("categories", .obj cl)])) =
            (match buildWeights wf, buildCategories cl with
            | .ok W, .ok C =>
                .ok (Lexicon.ofData (dedupKeysLast W) (dedupKeysLast C))
            | _, _ => Except.error LoadError.parseError) := rfl
        rw [hstep, he]
        cases buildCategories cl <;> simp [Except.isOk, Except.toBool]
    | null => simp [Lexicon.load, dget, List.find?, Except.isOk, Except.toBool]
    | jbool b => simp [Lexicon.load, dget, List.find?, Except.isOk, Except.toBool]
    | num q => simp [Lexicon.load, dget, List.find?, Except.isOk, Except.toBool]
    | str s => simp [Lexicon.load, dget, List.find?, Except.isOk, Except.toBool]
    | arr l => simp [Lexicon.load, dget, List.find?, Except.isOk, Except.toBool]

/-- Witness for C2's amended theorem: an artifact without either key
loads as the empty lexicon, and a `null` weight value is refused. -/
theorem C2_amended_witness :
    Lexicon.load (some (.obj [("other", .null)])) = .ok (Lexicon.ofData [] []) ∧
    (Lexicon.load (some (.obj [("weights", .obj [("t", .null)]),
      ("categories", .obj [])]))).isOk = false := by
  constructor
  · exact C2_amended_load_error_behaviour.2.1 [("other", .null)] rfl rfl
  · exact C2_amended_load_error_behaviour.2.2 [("t", .null)] (.obj [])
      "t" .null (by simp) rfl

/-! ### Tokenization and inflection (`_norm`, `_tokens`, `_simple_lemmas`) -/

/-- ASCII lowercase letter: what `[A-Za-z]` can match in text that has
already been lowercased. -/
def isAsciiLetter (c : Char) : Bool := decide ('a' ≤ c) && decide (c ≤ 'z')

/-- The ASCII apostrophe character. -/
def apos : Char := Char.ofNat 39

/-- `str.lower()` (`_norm`); ASCII case mapping, which is all the other
operations of the scoring core can observe. -/
def pyLower (s : String) : String := String.mk (s.data.map Char.toLower)

/-- Scanner for `re.findall(r"[A-Za-z]+(?:'[A-Za-z]+)?", ...)` on
lowercased text: maximal letter runs, optionally extended once by an
apostrophe followed by at least one letter.  `cur` is the reversed
current token, `hasAp` whether it already contains its apostrophe. -/
def tokenizeGo : List Char → Bool → List Char → List (List Char)
  | cur, _, [] => if cur.isEmpty then [] else [cur.reverse]
  | cur, hasAp, c :: cs =>
      if isAsciiLetter c then tokenizeGo (c :: cur) hasAp cs
      else if c == apos && !cur.isEmpty && !hasAp then
        match cs with
        | [] => [cur.reverse]
        | d :: rest =>
            if isAsciiLetter d then tokenizeGo (d :: apos :: cur) true rest
            else cur.reverse :: tokenizeGo [] false (d :: rest)
      else
        if cur.isEmpty then tokenizeGo [] false cs
        else cur.reverse :: tokenizeGo [] false cs

/-- `_tokens(text)`: lowercase, then extract word tokens. -/
def pyTokens (text : String) : List String :=
  (tokenizeGo [] false (pyLower text).data).map String.mk

/-- The suffix list `("s","es","ed","ing","er","est")`. -/
def SUFFIXES : List (List Char) :=
  [['s'], ['e','s'], ['e','d'], ['i','n','g'], ['e','r'], ['e','s','t']]

/-- `_simple_lemmas` on the character list of an already-lowercased
token: the token itself, the `"...ies" → "...y"` special case, and each
suffix-stripped form guarded by `len(t) > len(suf)+1`.  (Python returns
`list(set(...))`; only membership in the result is ever used, so the
result is kept as a list in generation order.) -/
def simpleLemmasL (t : List Char) : List (List Char) :=
  let base := [t]
  let withIes :=
    if 3 < t.length && ['i','e','s'].isSuffixOf t then
      base ++ [t.take (t.length - 3) ++ ['y']]
    else base
  SUFFIXES.foldl
    (fun acc suf =>
      if suf.length + 1 < t.length && suf.isSuffixOf t then
        acc ++ [t.take (t.length - suf.length)]
      else acc)
    withIes

/-- `_simple_lemmas(tok)`. -/
def _simple_lemmas (tok : String) : List String :=
  (simpleLemmasL (pyLower tok).data).map String.mk

/-! ### Lexicon matching (`Lexicon.match`) -/

/-- One matched term: `{"categories": .., "weight": .., "kind": ..}`. -/
structure Hit where
  categories : List String
  weight : ℚ
  kind : String
deriving Repr, DecidableEq

/-- The hit recorded for `term`:
`{"categories": self.categories.get(term, []), "weight":
self.weights.get(term, 1.0), "kind": kind}`. -/
def Lexicon.mkHit (lex : Lexicon) (term : String) (kind : String) : Hit :=
  ⟨(dget lex.categories term).getD [], (dget lex.weights term).getD 1, kind⟩

/-- `range(n, 1, -1)` — the window lengths `n, n-1, …, 2`. -/
def downTo2 (n : ℕ) : List ℕ := (List.range' 2 (n - 1)).reverse

/-- All phrase hits recorded by the sliding-window pass, in loop order
(start position, then window length descending, then phrase list). -/
def phraseCands (lex : Lexicon) (toks : List String) : List (String × Hit) :=
  if 1 < lex.max_phrase_len && !toks.isEmpty then
    (List.range toks.length).flatMap (fun start =>
      (downTo2 (min lex.max_phrase_len (toks.length - start))).flatMap (fun plen =>
        lex.phrases.filterMap (fun pt =>
          if (toks.drop start).take plen == pt.1 then
            some (pt.2, lex.mkHit pt.2 "phrase")
          else none)))
  else []

/-- All word hits offered by the lemma pass, in loop order. -/
def wordCands (lex : Lexicon) (toks : List String) : List (String × Hit) :=
  toks.flatMap (fun tok =>
    (_simple_lemmas tok).filterMap (fun lem =>
      if lex.words.contains lem then some (lem, lex.mkHit lem "word") else none))

/-- Record a candidate hit unless its term is already present.  (The
phrase pass in the source overwrites `hits[term]`, but the recorded
value is a function of the term alone, so overwriting and skipping give
the same dict; the word pass skips explicitly via `lemma not in hits`.) -/
def hinsert (hits : List (String × Hit)) (kv : String × Hit) :
    List (String × Hit) :=
  if hits.any (fun p => p.1 == kv.1) then hits else hits ++ [kv]

/-- `Lexicon.match(text)`: tokenization, the phrase sliding window, then
single-token lemma matching, producing the hit dict in insertion order. -/
def Lexicon.matchHits (lex : Lexicon) (text : String) : List (String × Hit) :=
  let toks := pyTokens text
  (phraseCands lex toks ++ wordCands lex toks).foldl hinsert []

/-- `per_cat[c] = per_cat.get(c, 0.0) + weight`. -/
def catAdd (per : List (String × ℚ)) (c : String) (w : ℚ) : List (String × ℚ) :=
  if per.any (fun p => p.1 == c) then
    per.map (fun p => if p.1 == c then (p.1, p.2 + w) else p)
  else per ++ [(c, w)]

/-- `Lexicon.summarize(hits)`: per-category summed weights. -/
def summarize (hits : List (String × Hit)) : List (String × ℚ) :=
  hits.foldl (fun per kv =>
    kv.2.categories.foldl (fun per c => catAdd per c kv.2.weight) per) []

/-- `ALWAYS_FLAG_CATS`. -/
def ALWAYS_FLAG_CATS : List String := ["PS", "DDP", "DDF", "CDS", "ASM", "ASF"]

/-- `Lexicon.has_always_flag(hits)`. -/
def has_always_flag (hits : List (String × Hit)) : Bool :=
  hits.any (fun kv => kv.2.categories.any (fun c => ALWAYS_FLAG_CATS.contains c))

/-! ### Threat and stereotype heuristics (`model.py` regex patterns)

The four `THREAT_PATTERNS` and two `STEREO_FRAMES` are fixed regexes run
case-insensitively over the raw text.  They are embedded as a small
pattern language with exact backtracking semantics: `patMatch` returns
every remainder an alternative can leave, and `\s+`/`\s*`/`[a-z]{3,}`
use maximal munch, which coincides with the regex semantics here because
each such repetition is followed by a pattern element disjoint from the
repeated class. -/

/-- A word character for `\b` (ASCII view of Python's `\w`; the text has
been lowercased before matching, mirroring `re.I`). -/
def isWordChar (c : Char) : Bool := isAsciiLetter c || c.isDigit || c == '_'

/-- Pattern language covering the six regexes of `model.py`. -/
inductive Pat where
  | eps
  | lit (cs : List Char)
  | ws0
  | ws1
  | letters3
  | alt (p q : Pat)
  | seq (p q : Pat)

/-- All remainders after matching `p` at the front of `cs`. -/
def patMatch : Pat → List Char → List (List Char)
  | .eps, cs => [cs]
  | .lit l, cs => if l.isPrefixOf cs then [cs.drop l.length] else []
  | .ws0, cs => [cs.dropWhile (isPySpace ·)]
  | .ws1, cs =>
      match cs with
      | [] => []
      | c :: _ => if isPySpace c then [cs.dropWhile (isPySpace ·)] else []
  | .letters3, cs =>
      let run := cs.takeWhile (isAsciiLetter ·)
      if 3 ≤ run.length then [cs.drop run.length] else []
  | .alt p q, cs => patMatch p cs ++ patMatch q cs
  | .seq p q, cs => (patMatch p cs).flatMap (patMatch q)

/-- `('|’)?` and friends. -/
def Pat.opt (p : Pat) : Pat := .alt p .eps

/-- `\b` after a match: the remainder starts with a non-word character
or is empty. -/
def wordBoundary (cs : List Char) : Bool :=
  match cs with
  | [] => true
  | c :: _ => !isWordChar c

/-- The pattern matches at the front and ends on a word boundary. -/
def patHitB (p : Pat) (cs : List Char) : Bool :=
  (patMatch p cs).any wordBoundary

/-- The pattern matches at the front (no trailing boundary required). -/
def patHitAny (p : Pat) (cs : List Char) : Bool :=
  !(patMatch p cs).isEmpty

/-- Leading `\b`: every pattern below starts with a word character, so
the boundary holds exactly when the previous character is absent or not
a word character. -/
def boundaryOk : Option Char → Bool
  | none => true
  | some c => !isWordChar c

/-- `re.search`-style scan: try the front test at every position whose
left context is a word boundary. -/
def searchAux (f : List Char → Bool) : Option Char → List Char → Bool
  | prev, [] => boundaryOk prev && f []
  | prev, c :: rest =>
      (boundaryOk prev && f (c :: rest)) || searchAux f (some c) rest

/-- `i\s*('|’)?m\s+going\s+to`. -/
def IM_GOING_TO : Pat :=
  .seq (.lit ['i']) (.seq .ws0 (.seq (Pat.opt (.alt (.lit [apos]) (.lit ['’'])))
    (.seq (.lit ['m']) (.seq .ws1 (.seq (.lit ['g','o','i','n','g'])
      (.seq .ws1 (.lit ['t','o'])))))))

/-- `i\s*will`. -/
def I_WILL : Pat := .seq (.lit ['i']) (.seq .ws0 (.lit ['w','i','l','l']))

/-- `i'll`. -/
def I_LL : Pat := .lit ['i', apos, 'l', 'l']

/-- `(kill|hurt|beat|stab|shoot)`. -/
def VIOLENCE_VERBS : Pat :=
  .alt (.lit ['k','i','l','l']) (.alt (.lit ['h','u','r','t'])
    (.alt (.lit ['b','e','a','t']) (.alt (.lit ['s','t','a','b'])
      (.lit ['s','h','o','o','t']))))

/-- `\b(i\s*('|’)?m\s+going\s+to|i\s*will|i'll)\s+(kill|hurt|beat|stab|shoot)\b`. -/
def THREAT_P1 : Pat :=
  .seq (.alt IM_GOING_TO (.alt I_WILL I_LL)) (.seq .ws1 VIOLENCE_VERBS)

/-- `\bkill\s+(you|u|ya)\b`. -/
def THREAT_P2 : Pat :=
  .seq (.lit ['k','i','l','l']) (.seq .ws1
    (.alt (.lit ['y','o','u']) (.alt (.lit ['u']) (.lit ['y','a']))))

/-- `\bshoot\s+up\b`. -/
def THREAT_P3 : Pat := .seq (.lit ['s','h','o','o','t']) (.seq .ws1 (.lit ['u','p']))

/-- `\b(dox|swat)\s+you\b`. -/
def THREAT_P4 : Pat :=
  .seq (.alt (.lit ['d','o','x']) (.lit ['s','w','a','t']))
    (.seq .ws1 (.lit ['y','o','u']))

/-- `any(rx.search(t) for rx in THREAT_PATTERNS)`. -/
def threatHit (text : String) : Bool :=
  searchAux (patHitB THREAT_P1) none (pyLower text).data ||
  searchAux (patHitB THREAT_P2) none (pyLower text).data ||
  searchAux (patHitB THREAT_P3) none (pyLower text).data ||
  searchAux (patHitB THREAT_P4) none (pyLower text).data

/-- `IDENTITY_WORDS` of `model.py`. -/
def IDENTITY_WORDS : List String :=
  ["asians", "asian", "chinese", "japanese", "korean", "viet", "filipino",
   "indian", "hindu", "muslim", "jew", "jewish", "christian", "arab",
   "black", "blacks", "white", "whites", "latino", "latina", "hispanic",
   "mexicans", "russians", "ukrainians", "turks", "kurds",
   "women", "woman", "girls", "males", "men", "guys", "gays", "lgbt",
   "trans", "transgender", "queer",
   "immigrants", "refugees", "foreigners"]

/-- `\s+(are|r)\s+[a-z]{3,}` — what follows the capture in frame 1. -/
def ST1_TAIL : Pat :=
  .seq .ws1 (.seq (.alt (.lit ['a','r','e']) (.lit ['r'])) (.seq .ws1 .letters3))

/-- `\s+(is|are)\s+[a-z]{3,}` — what follows the capture in frame 2. -/
def ST2_TAIL : Pat :=
  .seq .ws1 (.seq (.alt (.lit ['i','s']) (.lit ['a','r','e'])) (.seq .ws1 .letters3))

/-- Match one stereotype frame at the front: the keyword, `\s+`, the
captured `([a-z]{3,})` (greedy, here maximal munch since `\s+` follows),
then the tail.  Returns the capture. -/
def stereoFrameAt (kw : List Char) (tail : Pat) (cs : List Char) :
    Option (List Char) :=
  if kw.isPrefixOf cs then
    let rest := cs.drop kw.length
    match rest with
    | [] => none
    | c :: _ =>
        if isPySpace c then
          let rest2 := rest.dropWhile (isPySpace ·)
          let cap := rest2.takeWhile (isAsciiLetter ·)
          if 3 ≤ cap.length && patHitAny tail (rest2.drop cap.length) then
            some cap
          else none
        else none
  else none

/-- Leftmost frame match (`rx.search` returns only the first match, and
`_stereo_hit` tests only that match's capture). -/
def searchFirst (f : List Char → Option (List Char)) :
    Option Char → List Char → Option (List Char)
  | prev, [] => if boundaryOk prev then f [] else none
  | prev, c :: rest =>
      match (if boundaryOk prev then f (c :: rest) else none) with
      | some cap => some cap
      | none => searchFirst f (some c) rest

/-- `_stereo_hit(text)`. -/
def stereoHit (text : String) : Bool :=
  (match searchFirst (stereoFrameAt ['a','l','l'] ST1_TAIL) none
      (pyLower text).data with
   | some cap => IDENTITY_WORDS.contains (String.mk cap)
   | none => false) ||
  (match searchFirst (stereoFrameAt ['e','v','e','r','y'] ST2_TAIL) none
      (pyLower text).data with
   | some cap => IDENTITY_WORDS.contains (String.mk cap)
   | none => false)

/-! ### The scorer (`model.py`, `score`) -/

/-- `sum(per_cat.get(c, 0.0) for c in cats)`. -/
def catSum (per : List (String × ℚ)) (cats : List String) : ℚ :=
  cats.foldl (fun acc c => acc + dgetD per c 0) 0

/-- Python `round(x, 4)`: round to the nearest 4-decimal grid point.
(Exact-tie direction — banker's rounding on binary floats — is modelled
as round-half-up; no claim distinguishes the two.) -/
def round4 (x : ℚ) : ℚ := (⌊x * 10000 + 1/2⌋ : ℚ) / 10000

/-- The six label scores before the final rounding, in the order they
are computed by `score`.  `ramp` stands for `_ramp(x) =
1 - exp(-0.6·max(0,x))`, passed in as a function parameter because it is
transcendental; theorems assume of it only what the real ramp satisfies
(range and monotonicity), and some need no assumption at all. -/
structure RawScores where
  toxicity : ℚ
  severe : ℚ
  insult : ℚ
  threat : ℚ
  obscene : ℚ
  identity : ℚ
deriving Repr, DecidableEq

/-- Steps 1–6 of `score(text)` (everything except the rounding). -/
def scoreCore (lex : Lexicon) (ramp : ℚ → ℚ) (text : String) : RawScores :=
  let hits := lex.matchHits text
  let per_cat := summarize hits
  let any_hits := !hits.isEmpty
  let threat : ℚ := if threatHit text then 0.95 else 0
  let identity0 : ℚ := if stereoHit text then 0.80 else 0
  let tobii : ℚ × ℚ × ℚ × ℚ :=
    if any_hits then
      let total_w := (per_cat.map (·.2)).sum
      let base := ramp total_w
      (max 0 (min 0.85 base),
       max 0 (ramp (catSum per_cat ["QAS", "SVP", "RE", "DMC"])),
       max 0 (ramp (catSum per_cat ["IS", "OM", "PR"])),
       max identity0 (ramp (catSum per_cat
         ["ASM", "ASF", "CDS", "RCI", "OR", "AN", "IS"])))
    else (0, 0, 0, identity0)
  let toxicity := tobii.1
  let obscene := tobii.2.1
  let insult := tobii.2.2.1
  let identity := tobii.2.2.2
  let alwaysFlagged := per_cat.any (fun p => ALWAYS_FLAG_CATS.contains p.1)
  let toxicity := if alwaysFlagged then max toxicity 0.98 else toxicity
  let identity :=
    if alwaysFlagged &&
        per_cat.any (fun p => (["ASM", "ASF", "CDS"] : List String).contains p.1)
    then max identity 0.90 else identity
  let toxicity := if threat ≥ 0.9 then max toxicity 0.9 else toxicity
  let severe : ℚ :=
    if toxicity ≥ 0.9 ∧ (obscene ≥ 0.6 ∨ threat ≥ 0.8 ∨ identity ≥ 0.8)
    then 0.85 else 0
  ⟨toxicity, severe, insult, threat, obscene, identity⟩

/-- `score(text)`: the returned dict, each value rounded to 4 places. -/
def score (lex : Lexicon) (ramp : ℚ → ℚ) (text : String) : List (String × ℚ) :=
  [("toxicity", round4 (scoreCore lex ramp text).toxicity),
   ("severe_toxicity", round4 (scoreCore lex ramp text).severe),
   ("insult", round4 (scoreCore lex ramp text).insult),
   ("threat", round4 (scoreCore lex ramp text).threat),
   ("obscene", round4 (scoreCore lex ramp text).obscene),
   ("identity_attack", round4 (scoreCore lex ramp text).identity)]

/-- Read one label off a score dict. -/
def getLabel (scores : List (String × ℚ)) (k : String) : ℚ := dgetD scores k 0

/-- A concrete stand-in satisfying everything the theorems assume of the
real ramp (range in `[0,1]`, monotone); used to instantiate witnesses. -/
def clampRamp (x : ℚ) : ℚ := max 0 (min 1 x)

/-! ### Properties of the hit-dict construction -/

/-- Keys of an association list. -/
def keysOf {α : Type} (l : List (String × α)) : List String := l.map (·.1)

theorem hasKey_iff {α : Type} (l : List (String × α)) (k : String) :
    (l.any (fun p => p.1 == k) = true) ↔ k ∈ keysOf l := by
  simp [keysOf, List.any_eq_true, List.mem_map]

theorem hinsert_keys (init : List (String × Hit)) (kv : String × Hit)
    (k : String) :
    k ∈ keysOf (hinsert init kv) ↔ k ∈ keysOf init ∨ k = kv.1 := by
  unfold hinsert
  by_cases hp : init.any (fun p => p.1 == kv.1) = true
  · rw [if_pos hp]
    have := (hasKey_iff init kv.1).mp hp
    constructor
    · exact fun h => Or.inl h
    · rintro (h | rfl)
      · exact h
      · exact this
  · rw [if_neg hp]
    simp [keysOf]

theorem foldl_hinsert_keys (cands : List (String × Hit)) :
    ∀ (init : List (String × Hit)) (k : String),
      (k ∈ keysOf (cands.foldl hinsert init) ↔
        k ∈ keysOf init ∨ ∃ h, (k, h) ∈ cands) := by
  induction cands with
  | nil => intro init k; simp
  | cons kv rest ih =>
      intro init k
      rw [List.foldl_cons, ih (hinsert init kv) k, hinsert_keys]
      constructor
      · rintro ((h | rfl) | ⟨h, hh⟩)
        · exact Or.inl h
        · exact Or.inr ⟨kv.2, by simp⟩
        · exact Or.inr ⟨h, by simp [hh]⟩
      · rintro (h | ⟨h, hh⟩)
        · exact Or.inl (Or.inl h)
        · rcases List.mem_cons.mp hh with heq | htl
          · exact Or.inl (Or.inr (congrArg Prod.fst heq))
          · exact Or.inr ⟨h, htl⟩

theorem foldl_hinsert_nodup (cands : List (String × Hit)) :
    ∀ (init : List (String × Hit)), (keysOf init).Nodup →
      (keysOf (cands.foldl hinsert init)).Nodup := by
  induction cands with
  | nil => intro init h; exact h
  | cons kv rest ih =>
      intro init h
      rw [List.foldl_cons]
      refine ih (hinsert init kv) ?_
      unfold hinsert
      by_cases hp : init.any (fun p => p.1 == kv.1) = true
      · rw [if_pos hp]; exact h
      · rw [if_neg hp]
        have hnot : kv.1 ∉ keysOf init := by
          intro hmem; exact hp ((hasKey_iff init kv.1).mpr hmem)
        have hkeys : keysOf (init ++ [kv]) = keysOf init ++ [kv.1] := by
          simp [keysOf]
        rw [hkeys]
        refine List.Nodup.append h (List.nodup_singleton _) ?_
        intro a ha hb
        rw [List.mem_singleton.mp hb] at ha
        exact hnot ha

theorem foldl_hinsert_entry (cands : List (String × Hit)) :
    ∀ (init : List (String × Hit)) (kv : String × Hit),
      kv ∈ cands.foldl hinsert init → kv ∈ init ∨ kv ∈ cands := by
  induction cands with
  | nil => intro init kv h; exact Or.inl h
  | cons c rest ih =>
      intro init kv h
      rw [List.foldl_cons] at h
      rcases ih (hinsert init c) kv h with h' | h'
      · unfold hinsert at h'
        by_cases hp : init.any (fun p => p.1 == c.1) = true
        · rw [if_pos hp] at h'; exact Or.inl h'
        · rw [if_neg hp] at h'
          rcases List.mem_append.mp h' with h'' | h''
          · exact Or.inl h''
          · exact Or.inr (List.mem_cons.mpr (Or.inl (List.mem_singleton.mp h'')))
      · exact Or.inr (List.mem_cons.mpr (Or.inr h'))

theorem keysOf_mem_exists {α : Type} (l : List (String × α)) (k : String)
    (h : k ∈ keysOf l) : ∃ v, (k, v) ∈ l := by
  rcases List.mem_map.mp h with ⟨⟨a, b⟩, hp, he⟩
  cases he
  exact ⟨b, hp⟩

/-- A contiguous segment of a list. -/
def isSegmentOf {α : Type} (xs ys : List α) : Prop :=
  ∃ s t, ys = s ++ xs ++ t

theorem mem_downTo2 (m n : ℕ) : m ∈ downTo2 n ↔ 2 ≤ m ∧ m ≤ n := by
  unfold downTo2
  rw [List.mem_reverse, List.mem_range'_1]
  omega

/-- Membership in the phrase candidate list, window form. -/
theorem phraseCands_mem (lex : Lexicon) (toks : List String)
    (k : String) (h : Hit) :
    ((k, h) ∈ phraseCands lex toks) ↔
      ((1 < lex.max_phrase_len ∧ toks ≠ []) ∧
        ∃ start plen pt, start < toks.length ∧
          (2 ≤ plen ∧ plen ≤ min lex.max_phrase_len (toks.length - start)) ∧
          pt ∈ lex.phrases ∧ (toks.drop start).take plen = pt.1 ∧
          k = pt.2 ∧ h = lex.mkHit pt.2 "phrase") := by
  unfold phraseCands
  by_cases hg : (1 < lex.max_phrase_len && !toks.isEmpty) = true
  · rw [if_pos hg]
    have hg' : 1 < lex.max_phrase_len ∧ toks ≠ [] := by
      simpa using hg
    simp only [List.mem_flatMap, List.mem_range, List.mem_filterMap,
      mem_downTo2]
    constructor
    · rintro ⟨start, hstart, plen, hplen, pt, hpt, hif⟩
      refine ⟨hg', start, plen, pt, hstart, hplen, hpt, ?_⟩
      by_cases hw : ((toks.drop start).take plen == pt.1) = true
      · rw [if_pos hw] at hif
        have := Option.some.inj hif
        exact ⟨by simpa using hw, congrArg Prod.fst this.symm,
          (congrArg Prod.snd this).symm⟩
      · rw [if_neg hw] at hif; exact absurd hif (by simp)
    · rintro ⟨_, start, plen, pt, hstart, hplen, hpt, hwin, rfl, rfl⟩
      refine ⟨start, hstart, plen, hplen, pt, hpt, ?_⟩
      rw [if_pos (by simpa using hwin)]
  · rw [if_neg hg]
    constructor
    · intro h; exact absurd h (List.not_mem_nil _)
    · rintro ⟨⟨h1, h2⟩, -⟩
      exact (hg (by simp [h1, h2])).elim

/-- Membership in the word candidate list. -/
theorem wordCands_mem (lex : Lexicon) (toks : List String)
    (k : String) (h : Hit) :
    ((k, h) ∈ wordCands lex toks) ↔
      ∃ tok ∈ toks, k ∈ _simple_lemmas tok ∧ lex.words.contains k = true ∧
        h = lex.mkHit k "word" := by
  unfold wordCands
  simp only [List.mem_flatMap, List.mem_filterMap]
  constructor
  · rintro ⟨tok, htok, lem, hlem, hif⟩
    by_cases hc : lex.words.contains lem = true
    · rw [if_pos hc] at hif
      have := Option.some.inj hif
      have hk : lem = k := congrArg Prod.fst this
      subst hk
      exact ⟨tok, htok, hlem, hc, (congrArg Prod.snd this).symm⟩
    · rw [if_neg hc] at hif; exact absurd hif (by simp)
  · rintro ⟨tok, htok, hlem, hc, rfl⟩
    exact ⟨tok, htok, k, hlem, by rw [if_pos hc]⟩

/-- Every phrase's token count is bounded by `max_phrase_len`. -/
theorem ofData_phrase_len_le (W : List (String × ℚ))
    (C : List (String × List String)) :
    ∀ pt ∈ (Lexicon.ofData W C).phrases,
      pt.1.length ≤ (Lexicon.ofData W C).max_phrase_len := by
  have main : ∀ (terms : List String)
      (init : List (List String × String) × List String × ℕ),
      (∀ q ∈ init.1, q.1.length ≤ init.2.2) →
      ∀ q ∈ (terms.foldl partitionStep init).1,
        q.1.length ≤ (terms.foldl partitionStep init).2.2 := by
    intro terms
    induction terms with
    | nil => intro init hinit q hq; exact hinit q hq
    | cons t rest ih =>
        intro init hinit q hq
        refine ih (partitionStep init t) ?_ q hq
        intro r hr
        unfold partitionStep at hr ⊢
        cases hphr : isPhraseTerm t with
        | false =>
            simp only [hphr, Bool.false_eq_true, if_false] at hr ⊢
            exact hinit r hr
        | true =>
            simp only [hphr, if_true] at hr ⊢
            cases hemp : (splitTerm t).isEmpty with
            | true =>
                simp only [hemp, if_true] at hr ⊢
                exact hinit r hr
            | false =>
                simp only [hemp, Bool.false_eq_true, if_false, List.mem_append,
                  List.mem_singleton] at hr ⊢
                rcases hr with hr | hr
                · exact le_trans (hinit r hr) (le_max_left _ _)
                · rw [hr]; exact le_max_right _ _
  exact main (W.map (·.1)) ([], [], 1) (by simp)

/-- Characterisation of the matched-term key set: a term is hit exactly
when it is a registered phrase of ≥ 2 tokens occurring as a contiguous
token segment, or a registered word reachable as a lemma candidate of
some token. -/
theorem matchHits_key_iff (lex : Lexicon)
    (hlen : ∀ pt ∈ lex.phrases, pt.1.length ≤ lex.max_phrase_len)
    (text : String) (k : String) :
    k ∈ keysOf (lex.matchHits text) ↔
      (∃ pt ∈ lex.phrases, pt.2 = k ∧ 2 ≤ pt.1.length ∧
        isSegmentOf pt.1 (pyTokens text)) ∨
      (lex.words.contains k = true ∧
        ∃ tok ∈ pyTokens text, k ∈ _simple_lemmas tok) := by
  unfold Lexicon.matchHits
  rw [foldl_hinsert_keys]
  simp only [keysOf, List.map_nil, List.not_mem_nil, false_or]
  constructor
  · rintro ⟨h, hh⟩
    rcases List.mem_append.mp hh with hp | hw
    · left
      rcases (phraseCands_mem lex (pyTokens text) k h).mp hp with
        ⟨⟨hml, hne⟩, start, plen, pt, hstart, hplen, hpt, hwin, rfl, hhit⟩
      have hlen2 : pt.1.length = plen := by
        rw [← hwin]
        have h1 : (List.drop start (pyTokens text)).length =
            (pyTokens text).length - start := List.length_drop _ _
        rw [List.length_take, h1]
        omega
      refine ⟨pt, hpt, rfl, by omega, ?_⟩
      refine ⟨(pyTokens text).take start,
        (List.drop start (pyTokens text)).drop plen, ?_⟩
      rw [← hwin, List.append_assoc, List.take_append_drop,
        List.take_append_drop]
    · right
      rcases (wordCands_mem lex (pyTokens text) k h).mp hw with
        ⟨tok, htok, hlem, hc, -⟩
      exact ⟨hc, tok, htok, hlem⟩
  · rintro (⟨pt, hpt, rfl, hlen2, s, t, hseg⟩ | ⟨hc, tok, htok, hlem⟩)
    · refine ⟨lex.mkHit pt.2 "phrase", List.mem_append.mpr (Or.inl ?_)⟩
      rw [phraseCands_mem]
      have hL : (pyTokens text).length = s.length + pt.1.length + t.length := by
        rw [hseg]; simp only [List.length_append]
      refine ⟨⟨by have := hlen pt hpt; omega, ?_⟩,
        s.length, pt.1.length, pt, by omega,
        ⟨hlen2, le_min (hlen pt hpt) (by omega)⟩, hpt, ?_, rfl, rfl⟩
      · intro hnil; rw [hnil] at hL; simp at hL; omega
      · rw [hseg, List.append_assoc, List.drop_left, List.take_left]
    · refine ⟨lex.mkHit k "word", List.mem_append.mpr (Or.inr ?_)⟩
      rw [wordCands_mem]
      exact ⟨tok, htok, hlem, hc, rfl⟩

/-- The recorded hit of a term always carries that term's stored
categories and weight (with the source's defaults). -/
theorem matchHits_entry_val (lex : Lexicon) (text : String)
    (k : String) (h : Hit) (hmem : (k, h) ∈ lex.matchHits text) :
    h.categories = (dget lex.categories k).getD [] ∧
    h.weight = (dget lex.weights k).getD 1 := by
  rcases foldl_hinsert_entry _ _ _ hmem with hin | hc
  · exact absurd hin (List.not_mem_nil _)
  · rcases List.mem_append.mp hc with hp | hw
    · rcases (phraseCands_mem lex (pyTokens text) k h).mp hp with
        ⟨-, start, plen, pt, -, -, -, -, rfl, rfl⟩
      exact ⟨rfl, rfl⟩
    · rcases (wordCands_mem lex (pyTokens text) k h).mp hw with
        ⟨tok, -, -, -, rfl⟩
      exact ⟨rfl, rfl⟩

/-- The hit dict never holds two entries for the same term. -/
theorem matchHits_keys_nodup (lex : Lexicon) (text : String) :
    (keysOf (lex.matchHits text)).Nodup :=
  foldl_hinsert_nodup _ _ (by simp [keysOf])

/-- `per_cat.get(c, 0.0)`. -/
def getCat (per : List (String × ℚ)) (c : String) : ℚ := dgetD per c 0

theorem mem_keysOf_cons {α : Type} (p : String × α) (l : List (String × α))
    (c : String) : c ∈ keysOf (p :: l) ↔ c = p.1 ∨ c ∈ keysOf l := by
  simp [keysOf]

theorem getCat_cons_eq (p : String × ℚ) (l : List (String × ℚ)) (c0 : String)
    (h : c0 = p.1) : getCat (p :: l) c0 = p.2 := by
  unfold getCat dgetD dget
  have hb : (p.1 == c0) = true := by simpa using h.symm
  simp only [List.find?, hb]
  rfl

theorem getCat_cons_ne (p : String × ℚ) (l : List (String × ℚ)) (c0 : String)
    (h : ¬c0 = p.1) : getCat (p :: l) c0 = getCat l c0 := by
  unfold getCat dgetD dget
  have hb : (p.1 == c0) = false := by simpa using fun hh => h hh.symm
  simp only [List.find?, hb]

theorem map_upsert_id (rest : List (String × ℚ)) (c : String) (w : ℚ)
    (hno : c ∉ keysOf rest) :
    rest.map (fun p => if p.1 == c then (p.1, p.2 + w) else p) = rest := by
  induction rest with
  | nil => rfl
  | cons p l ih =>
      have hpk : ¬p.1 = c := by
        intro he; exact hno ((mem_keysOf_cons p l c).mpr (Or.inl he.symm))
      have hnl : c ∉ keysOf l := by
        intro hm; exact hno ((mem_keysOf_cons p l c).mpr (Or.inr hm))
      simp only [List.map_cons]
      rw [ih hnl]
      congr 1
      simp [hpk]

theorem catAdd_cons_ne (p : String × ℚ) (rest : List (String × ℚ))
    (c : String) (w : ℚ) (hpc : ¬p.1 = c) :
    catAdd (p :: rest) c w = p :: catAdd rest c w := by
  unfold catAdd
  have hpcb : (p.1 == c) = false := by simpa using hpc
  by_cases hany : (rest.any (fun q => q.1 == c)) = true
  · have h2 : ((p :: rest).any (fun q => q.1 == c)) = true := by
      simp [List.any_cons, hany]
    rw [if_pos h2, if_pos hany]
    simp only [List.map_cons, hpcb, Bool.false_eq_true, if_false]
  · have h2 : ¬((p :: rest).any (fun q => q.1 == c)) = true := by
      simp only [List.any_cons, hpcb, Bool.false_or]
      exact hany
    rw [if_neg h2, if_neg hany]
    rfl

theorem catAdd_cons_eq (p : String × ℚ) (rest : List (String × ℚ))
    (c : String) (w : ℚ) (hpc : p.1 = c) (hno : c ∉ keysOf rest) :
    catAdd (p :: rest) c w = (p.1, p.2 + w) :: rest := by
  unfold catAdd
  have h2 : ((p :: rest).any (fun q => q.1 == c)) = true := by
    simp [List.any_cons, hpc]
  rw [if_pos h2]
  simp only [List.map_cons]
  rw [map_upsert_id rest c w hno]
  have : (p.1 == c) = true := by simpa using hpc
  rw [this]
  simp

theorem getCat_catAdd (per : List (String × ℚ)) (c c0 : String) (w : ℚ)
    (hnd : (keysOf per).Nodup) :
    getCat (catAdd per c w) c0 = getCat per c0 + (if c0 = c then w else 0) := by
  induction per with
  | nil =>
      unfold catAdd
      simp only [List.any_nil, Bool.false_eq_true, if_false, List.nil_append]
      by_cases he : c0 = c
      · rw [getCat_cons_eq _ _ _ he]
        simp [getCat, dgetD, dget, he]
      · rw [getCat_cons_ne _ _ _ he]
        simp [getCat, dgetD, dget, he]
  | cons p rest ih =>
      have hnd1 : p.1 ∉ keysOf rest := by
        simp only [keysOf, List.map_cons, List.nodup_cons] at hnd
        exact hnd.1
      have hnd' : (keysOf rest).Nodup := by
        simp only [keysOf, List.map_cons, List.nodup_cons] at hnd
        exact hnd.2
      by_cases hpc : p.1 = c
      · rw [catAdd_cons_eq p rest c w hpc (hpc ▸ hnd1)]
        by_cases h0 : c0 = p.1
        · rw [getCat_cons_eq (p.1, p.2 + w) rest c0 h0,
            getCat_cons_eq p rest c0 h0, if_pos (h0.trans hpc)]
        · rw [getCat_cons_ne (p.1, p.2 + w) rest c0 h0,
            getCat_cons_ne p rest c0 h0,
            if_neg (fun hh => h0 (hh.trans hpc.symm))]
          simp
      · rw [catAdd_cons_ne p rest c w hpc]
        by_cases h0 : c0 = p.1
        · rw [getCat_cons_eq _ _ _ h0, getCat_cons_eq _ _ _ h0]
          rw [if_neg (fun hh => hpc (h0.symm.trans hh))]
          simp
        · rw [getCat_cons_ne _ _ _ h0, getCat_cons_ne _ _ _ h0]
          exact ih hnd'

theorem keysOf_catAdd_of_mem (per : List (String × ℚ)) (c : String) (w : ℚ)
    (h : c ∈ keysOf per) : keysOf (catAdd per c w) = keysOf per := by
  unfold catAdd
  rw [if_pos ((hasKey_iff per c).mpr h)]
  unfold keysOf
  rw [List.map_map]
  refine List.map_congr_left ?_
  intro p _
  simp only [Function.comp]
  split <;> rfl

theorem keysOf_catAdd_of_not_mem (per : List (String × ℚ)) (c : String) (w : ℚ)
    (h : c ∉ keysOf per) : keysOf (catAdd per c w) = keysOf per ++ [c] := by
  unfold catAdd
  rw [if_neg (fun ha => h ((hasKey_iff per c).mp ha))]
  simp [keysOf]

theorem mem_keysOf_catAdd (per : List (String × ℚ)) (c c0 : String) (w : ℚ) :
    c0 ∈ keysOf (catAdd per c w) ↔ c0 ∈ keysOf per ∨ c0 = c := by
  by_cases h : c ∈ keysOf per
  · rw [keysOf_catAdd_of_mem per c w h]
    constructor
    · exact Or.inl
    · rintro (hh | rfl)
      · exact hh
      · exact h
  · rw [keysOf_catAdd_of_not_mem per c w h]
    simp

theorem keysOf_catAdd_nodup (per : List (String × ℚ)) (c : String) (w : ℚ)
    (h : (keysOf per).Nodup) : (keysOf (catAdd per c w)).Nodup := by
  by_cases hm : c ∈ keysOf per
  · rwa [keysOf_catAdd_of_mem per c w hm]
  · rw [keysOf_catAdd_of_not_mem per c w hm]
    refine List.Nodup.append h (List.nodup_singleton _) ?_
    intro a ha hb
    rw [List.mem_singleton.mp hb] at ha
    exact hm ha

/-- Adding one hit's categories into the accumulator, as in `summarize`. -/
def catsFold (cats : List String) (w : ℚ) (per : List (String × ℚ)) :
    List (String × ℚ) :=
  cats.foldl (fun per c => catAdd per c w) per

theorem summarize_eq_foldl (hits : List (String × Hit)) :
    summarize hits =
      hits.foldl (fun per kv => catsFold kv.2.categories kv.2.weight per) [] := rfl

theorem mem_keysOf_catsFold (cats : List String) (w : ℚ) :
    ∀ (per : List (String × ℚ)) (c0 : String),
      c0 ∈ keysOf (catsFold cats w per) ↔ c0 ∈ keysOf per ∨ c0 ∈ cats := by
  induction cats with
  | nil => intro per c0; simp [catsFold]
  | cons c rest ih =>
      intro per c0
      unfold catsFold at ih ⊢
      rw [List.foldl_cons, ih (catAdd per c w) c0, mem_keysOf_catAdd]
      constructor
      · rintro ((h | rfl) | h)
        · exact Or.inl h
        · exact Or.inr (List.mem_cons_self _ _)
        · exact Or.inr (List.mem_cons_of_mem _ h)
      · rintro (h | h)
        · exact Or.inl (Or.inl h)
        · rcases List.mem_cons.mp h with rfl | h'
          · exact Or.inl (Or.inr rfl)
          · exact Or.inr h'

theorem keysOf_catsFold_nodup (cats : List String) (w : ℚ) :
    ∀ (per : List (String × ℚ)), (keysOf per).Nodup →
      (keysOf (catsFold cats w per)).Nodup := by
  induction cats with
  | nil => intro per h; exact h
  | cons c rest ih =>
      intro per h
      unfold catsFold at ih ⊢
      rw [List.foldl_cons]
      exact ih (catAdd per c w) (keysOf_catAdd_nodup per c w h)

theorem getCat_catsFold (cats : List String) (w : ℚ) :
    ∀ (per : List (String × ℚ)), (keysOf per).Nodup → ∀ (c0 : String),
      getCat (catsFold cats w per) c0 =
        getCat per c0 + (cats.count c0 : ℚ) * w := by
  induction cats with
  | nil => intro per _ c0; simp [catsFold]
  | cons c rest ih =>
      intro per hnd c0
      unfold catsFold at ih ⊢
      rw [List.foldl_cons,
        ih (catAdd per c w) (keysOf_catAdd_nodup per c w hnd) c0,
        getCat_catAdd per c c0 w hnd]
      by_cases h0 : c0 = c
      · subst h0
        rw [List.count_cons_self]
        simp only [if_true]
        push_cast
        ring
      · rw [List.count_cons_of_ne (fun hh => h0 hh) ]
        simp [h0]

theorem sumVals_catAdd (per : List (String × ℚ)) (c : String) (w : ℚ)
    (hnd : (keysOf per).Nodup) :
    ((catAdd per c w).map (·.2)).sum = (per.map (·.2)).sum + w := by
  induction per with
  | nil => simp [catAdd]
  | cons p rest ih =>
      have hnd1 : p.1 ∉ keysOf rest := by
        simp only [keysOf, List.map_cons, List.nodup_cons] at hnd
        exact hnd.1
      have hnd' : (keysOf rest).Nodup := by
        simp only [keysOf, List.map_cons, List.nodup_cons] at hnd
        exact hnd.2
      by_cases hpc : p.1 = c
      · rw [catAdd_cons_eq p rest c w hpc (hpc ▸ hnd1)]
        simp only [List.map_cons, List.sum_cons]
        ring
      · rw [catAdd_cons_ne p rest c w hpc]
        simp only [List.map_cons, List.sum_cons]
        rw [ih hnd']
        ring

theorem sumVals_catsFold (cats : List String) (w : ℚ) :
    ∀ (per : List (String × ℚ)), (keysOf per).Nodup →
      ((catsFold cats w per).map (·.2)).sum =
        (per.map (·.2)).sum + (cats.length : ℚ) * w := by
  induction cats with
  | nil => intro per _; simp [catsFold]
  | cons c rest ih =>
      intro per hnd
      unfold catsFold at ih ⊢
      rw [List.foldl_cons,
        ih (catAdd per c w) (keysOf_catAdd_nodup per c w hnd),
        sumVals_catAdd per c w hnd]
      simp only [List.length_cons]
      push_cast
      ring

/-- Invariant pack for the `summarize` fold. -/
theorem summarize_fold_props (hits : List (String × Hit)) :
    ∀ (per : List (String × ℚ)), (keysOf per).Nodup →
      (keysOf (hits.foldl (fun per kv =>
          catsFold kv.2.categories kv.2.weight per) per)).Nodup ∧
      (∀ c0, c0 ∈ keysOf (hits.foldl (fun per kv =>
          catsFold kv.2.categories kv.2.weight per) per) ↔
        c0 ∈ keysOf per ∨ ∃ kv ∈ hits, c0 ∈ kv.2.categories) ∧
      (∀ c0, getCat (hits.foldl (fun per kv =>
          catsFold kv.2.categories kv.2.weight per) per) c0 =
        getCat per c0 + (hits.map (fun kv =>
          (kv.2.categories.count c0 : ℚ) * kv.2.weight)).sum) ∧
      (((hits.foldl (fun per kv =>
          catsFold kv.2.categories kv.2.weight per) per).map (·.2)).sum =
        (per.map (·.2)).sum + (hits.map (fun kv =>
          (kv.2.categories.length : ℚ) * kv.2.weight)).sum) := by
  induction hits with
  | nil => intro per hnd; refine ⟨hnd, ?_, ?_, ?_⟩ <;> simp
  | cons kv rest ih =>
      intro per hnd
      have hnd' := keysOf_catsFold_nodup kv.2.categories kv.2.weight per hnd
      obtain ⟨ihnd, ihkeys, ihget, ihsum⟩ :=
        ih (catsFold kv.2.categories kv.2.weight per) hnd'
      refine ⟨by simpa using ihnd, ?_, ?_, ?_⟩
      · intro c0
        rw [List.foldl_cons, ihkeys c0,
          mem_keysOf_catsFold kv.2.categories kv.2.weight per c0]
        constructor
        · rintro ((h | h) | ⟨kv', hkv', hc⟩)
          · exact Or.inl h
          · exact Or.inr ⟨kv, List.mem_cons_self _ _, h⟩
          · exact Or.inr ⟨kv', List.mem_cons_of_mem _ hkv', hc⟩
        · rintro (h | ⟨kv', hkv', hc⟩)
          · exact Or.inl (Or.inl h)
          · rcases List.mem_cons.mp hkv' with rfl | h'
            · exact Or.inl (Or.inr hc)
            · exact Or.inr ⟨kv', h', hc⟩
      · intro c0
        rw [List.foldl_cons, ihget c0,
          getCat_catsFold kv.2.categories kv.2.weight per hnd c0]
        simp only [List.map_cons, List.sum_cons]
        ring
      · rw [List.foldl_cons, ihsum,
          sumVals_catsFold kv.2.categories kv.2.weight per hnd]
        simp only [List.map_cons, List.sum_cons]
        ring

theorem keysOf_summarize_iff (hits : List (String × Hit)) (c0 : String) :
    c0 ∈ keysOf (summarize hits) ↔ ∃ kv ∈ hits, c0 ∈ kv.2.categories := by
  rw [summarize_eq_foldl]
  have := (summarize_fold_props hits [] (by simp [keysOf])).2.1 c0
  rw [this]
  simp [keysOf]

theorem getCat_summarize (hits : List (String × Hit)) (c0 : String) :
    getCat (summarize hits) c0 =
      (hits.map (fun kv => (kv.2.categories.count c0 : ℚ) * kv.2.weight)).sum := by
  rw [summarize_eq_foldl]
  have := (summarize_fold_props hits [] (by simp [keysOf])).2.2.1 c0
  rw [this]
  simp [getCat, dgetD, dget]

theorem sumVals_summarize (hits : List (String × Hit)) :
    ((summarize hits).map (·.2)).sum =
      (hits.map (fun kv => (kv.2.categories.length : ℚ) * kv.2.weight)).sum := by
  rw [summarize_eq_foldl]
  have := (summarize_fold_props hits [] (by simp [keysOf])).2.2.2
  rw [this]
  simp

/-- A sum over hit entries with key-determined values is a sum over the
distinct keys. -/
theorem entries_sum_eq_finset (hits : List (String × Hit))
    (g : String × Hit → ℚ) (f : String → ℚ)
    (hnd : (keysOf hits).Nodup) (hval : ∀ kv ∈ hits, g kv = f kv.1) :
    (hits.map g).sum = ∑ k ∈ (keysOf hits).toFinset, f k := by
  have h1 : hits.map g = (keysOf hits).map f := by
    unfold keysOf
    rw [List.map_map]
    exact List.map_congr_left (fun kv hkv => hval kv hkv)
  rw [h1]
  exact (List.sum_toFinset f hnd).symm

/-- A tiny lexicon with the single flagged word `"bad"`. -/
def lexBad : Lexicon := Lexicon.ofData [("bad", 2)] [("bad", ["IS"])]

/-- C10: the hit map holds at most one entry per term however often the
term occurs (its key list is duplicate-free), so the per-category summary
adds each matched term's weight once per distinct term — the summary
value at any category is a sum over the *set* of matched terms (each
term contributing its stored weight once per listed occurrence of that
category).  Concretely, triplicating an already-matched term leaves both
the hit map and the summary unchanged. -/
theorem C10_one_hit_per_term :
    (∀ (lex : Lexicon) (text : String), (keysOf (lex.matchHits text)).Nodup) ∧
    (∀ (lex : Lexicon) (text : String) (c : String),
      getCat (summarize (lex.matchHits text)) c =
        ∑ k ∈ (keysOf (lex.matchHits text)).toFinset,
          (((dget lex.categories k).getD []).count c : ℚ) *
            (dget lex.weights k).getD 1) ∧
    lexBad.matchHits "bad bad bad" = lexBad.matchHits "bad" ∧
    summarize (lexBad.matchHits "bad bad bad") = [("IS", 2)] := by
  refine ⟨matchHits_keys_nodup, ?_, ?_, ?_⟩
  · intro lex text c
    rw [getCat_summarize]
    refine entries_sum_eq_finset _ _ _ (matchHits_keys_nodup lex text) ?_
    intro kv hkv
    obtain ⟨hc, hw⟩ := matchHits_entry_val lex text kv.1 kv.2 hkv
    rw [hc, hw]
  · with_unfolding_all rfl
  · with_unfolding_all rfl

/-- The always-flag test of step 4 sees exactly the categories carried
by some hit. -/
theorem perCat_any_flag_iff (hits : List (String × Hit)) :
    ((summarize hits).any (fun p => ALWAYS_FLAG_CATS.contains p.1) = true) ↔
      ∃ kv ∈ hits, ∃ c ∈ kv.2.categories, c ∈ ALWAYS_FLAG_CATS := by
  rw [List.any_eq_true]
  constructor
  · rintro ⟨p, hp, hc⟩
    have hk : p.1 ∈ keysOf (summarize hits) := List.mem_map.mpr ⟨p, hp, rfl⟩
    rcases (keysOf_summarize_iff hits p.1).mp hk with ⟨kv, hkv, hcat⟩
    exact ⟨kv, hkv, p.1, hcat, by simpa using hc⟩
  · rintro ⟨kv, hkv, c, hcat, hflag⟩
    have hk : c ∈ keysOf (summarize hits) :=
      (keysOf_summarize_iff hits c).mpr ⟨kv, hkv, hcat⟩
    rcases keysOf_mem_exists _ _ hk with ⟨v, hv⟩
    exact ⟨(c, v), hv, by simpa using hflag⟩

theorem round4_mono {x y : ℚ} (h : x ≤ y) : round4 x ≤ round4 y := by
  unfold round4
  have h1 : x * 10000 + 1/2 ≤ y * 10000 + 1/2 := by nlinarith
  have h2 := Int.floor_le_floor h1
  have h3 : ((⌊x * 10000 + 1/2⌋ : ℤ) : ℚ) ≤ ((⌊y * 10000 + 1/2⌋ : ℤ) : ℚ) := by
    exact_mod_cast h2
  linarith

/-- `round4` maps values on the 4-decimal grid to themselves. -/
theorem round4_grid (n : ℤ) : round4 ((n : ℚ) / 10000) = (n : ℚ) / 10000 := by
  unfold round4
  have h1 : (n : ℚ) / 10000 * 10000 + 1/2 = (n : ℚ) + 1/2 := by ring
  rw [h1]
  have h2 : ⌊(n : ℚ) + 1/2⌋ = n := by
    rw [add_comm]
    rw [Int.floor_add_int]
    norm_num
  rw [h2]

theorem round4_le_grid {x : ℚ} (n : ℤ) (h : x ≤ (n : ℚ) / 10000) :
    round4 x ≤ (n : ℚ) / 10000 := by
  calc round4 x ≤ round4 ((n : ℚ) / 10000) := round4_mono h
  _ = (n : ℚ) / 10000 := round4_grid n

theorem round4_ge_grid {x : ℚ} (n : ℤ) (h : (n : ℚ) / 10000 ≤ x) :
    (n : ℚ) / 10000 ≤ round4 x := by
  calc (n : ℚ) / 10000 = round4 ((n : ℚ) / 10000) := (round4_grid n).symm
  _ ≤ round4 x := round4_mono h

/-- The toxicity entry of the returned dict. -/
theorem getLabel_score_toxicity (lex : Lexicon) (ramp : ℚ → ℚ) (text : String) :
    getLabel (score lex ramp text) "toxicity" =
      round4 (scoreCore lex ramp text).toxicity := rfl

/-- Step 4 forces the raw toxicity to exactly 0.98 whenever an
always-flag category is present (the base score is capped at 0.85 and
the threat coupling only raises to 0.9). -/
theorem scoreCore_toxicity_flagged (lex : Lexicon) (ramp : ℚ → ℚ)
    (text : String)
    (hflag : ((summarize (lex.matchHits text)).any
      (fun p => ALWAYS_FLAG_CATS.contains p.1)) = true) :
    (scoreCore lex ramp text).toxicity = 0.98 := by
  unfold scoreCore
  simp only [hflag, if_true, Bool.true_and]
  set base : ℚ × ℚ × ℚ × ℚ :=
    (if (!(lex.matchHits text).isEmpty) = true then
      ((max 0 (min 0.85 (ramp (((summarize (lex.matchHits text)).map (·.2)).sum)))),
       max 0 (ramp (catSum (summarize (lex.matchHits text)) ["QAS", "SVP", "RE", "DMC"])),
       max 0 (ramp (catSum (summarize (lex.matchHits text)) ["IS", "OM", "PR"])),
       max (if stereoHit text then (0.80 : ℚ) else 0)
         (ramp (catSum (summarize (lex.matchHits text))
           ["ASM", "ASF", "CDS", "RCI", "OR", "AN", "IS"])))
    else (0, 0, 0, if stereoHit text then (0.80 : ℚ) else 0)) with hbase
  have hcap : base.1 ≤ 0.85 := by
    rw [hbase]
    split
    · exact max_le (by norm_num) (min_le_left _ _)
    · norm_num
  have hmax : max base.1 0.98 = 0.98 := max_eq_right (by linarith)
  split
  · rw [if_pos (by norm_num : (0.95 : ℚ) ≥ 0.9), hmax]
    exact max_eq_left (by norm_num)
  · rw [if_neg (by norm_num : ¬(0 : ℚ) ≥ 0.9)]
    exact hmax

theorem round4_num (x : ℚ) (n : ℤ) (h : x = (n : ℚ) / 10000) :
    round4 x = x := by rw [h, round4_grid]

/-- C3: whenever the lexicon match of a text contains a hit carrying an
always-flag category, the returned toxicity is ≥ 0.98. -/
theorem C3_always_flag_forces_toxicity (W : List (String × ℚ))
    (C : List (String × List String)) (ramp : ℚ → ℚ) (text : String)
    (h : ∃ kv ∈ (Lexicon.ofData W C).matchHits text,
      ∃ c ∈ kv.2.categories, c ∈ ALWAYS_FLAG_CATS) :
    (0.98 : ℚ) ≤ getLabel (score (Lexicon.ofData W C) ramp text) "toxicity" := by
  rw [getLabel_score_toxicity,
    scoreCore_toxicity_flagged _ _ _ ((perCat_any_flag_iff _).mpr h),
    round4_num (0.98 : ℚ) 9800 (by norm_num)]

/-- Witness for C3 at a one-word lexicon whose term carries `PS`. -/
theorem C3_witness :
    (0.98 : ℚ) ≤ getLabel (score (Lexicon.ofData [("slur", 1)]
      [("slur", ["PS"])]) clampRamp "a slur here") "toxicity" :=
  C3_always_flag_forces_toxicity [("slur", 1)] [("slur", ["PS"])] clampRamp
    "a slur here" (by with_unfolding_all decide)

theorem getLabel_score_severe (lex : Lexicon) (ramp : ℚ → ℚ) (text : String) :
    getLabel (score lex ramp text) "severe_toxicity" =
      round4 (scoreCore lex ramp text).severe := rfl

theorem getLabel_score_threat (lex : Lexicon) (ramp : ℚ → ℚ) (text : String) :
    getLabel (score lex ramp text) "threat" =
      round4 (scoreCore lex ramp text).threat := rfl

theorem scoreCore_severe_def (lex : Lexicon) (ramp : ℚ → ℚ) (text : String) :
    (scoreCore lex ramp text).severe =
      if (scoreCore lex ramp text).toxicity ≥ 0.9 ∧
          ((scoreCore lex ramp text).obscene ≥ 0.6 ∨
           (scoreCore lex ramp text).threat ≥ 0.8 ∨
           (scoreCore lex ramp text).identity ≥ 0.8)
      then 0.85 else 0 := rfl

theorem scoreCore_threat_def (lex : Lexicon) (ramp : ℚ → ℚ) (text : String) :
    (scoreCore lex ramp text).threat =
      if threatHit text then 0.95 else 0 := rfl

/-- The raw toxicity is the capped base (≤ 0.85), or exactly 0.9 from
the threat coupling, or exactly 0.98 from the always-flag escalation. -/
theorem scoreCore_toxicity_cases (lex : Lexicon) (ramp : ℚ → ℚ) (text : String) :
    (scoreCore lex ramp text).toxicity ≤ 0.85 ∨
    (scoreCore lex ramp text).toxicity = 0.9 ∨
    (scoreCore lex ramp text).toxicity = 0.98 := by
  by_cases hflag : ((summarize (lex.matchHits text)).any
      (fun p => ALWAYS_FLAG_CATS.contains p.1)) = true
  · exact Or.inr (Or.inr (scoreCore_toxicity_flagged lex ramp text hflag))
  · have hflag' : ((summarize (lex.matchHits text)).any
        (fun p => ALWAYS_FLAG_CATS.contains p.1)) = false := by
      simpa using hflag
    unfold scoreCore
    simp only [hflag', Bool.false_eq_true, if_false, Bool.false_and]
    set base : ℚ × ℚ × ℚ × ℚ :=
      (if (!(lex.matchHits text).isEmpty) = true then
        ((max 0 (min 0.85 (ramp (((summarize (lex.matchHits text)).map (·.2)).sum)))),
         max 0 (ramp (catSum (summarize (lex.matchHits text)) ["QAS", "SVP", "RE", "DMC"])),
         max 0 (ramp (catSum (summarize (lex.matchHits text)) ["IS", "OM", "PR"])),
         max (if stereoHit text then (0.80 : ℚ) else 0)
           (ramp (catSum (summarize (lex.matchHits text))
             ["ASM", "ASF", "CDS", "RCI", "OR", "AN", "IS"])))
      else (0, 0, 0, if stereoHit text then (0.80 : ℚ) else 0)) with hbase
    have hcap : base.1 ≤ 0.85 := by
      rw [hbase]
      split
      · exact max_le (by norm_num) (min_le_left _ _)
      · norm_num
    split
    · rw [if_pos (by norm_num : (0.95 : ℚ) ≥ 0.9)]
      exact Or.inr (Or.inl (max_eq_right (by linarith)))
    · rw [if_neg (by norm_num : ¬(0 : ℚ) ≥ 0.9)]
      exact Or.inl hcap

/-- C4: within the returned score map, a positive severe_toxicity forces
toxicity ≥ 0.9; severe_toxicity only takes the values 0 and 0.85, and it
is 0.85 exactly when the returned toxicity is ≥ 0.9 and one of the three
strong signals holds (obscene ≥ 0.6 and identity_attack ≥ 0.8 refer to
the scorer's computed values just before the final 4-decimal rounding;
the returned threat is never changed by rounding). -/
theorem C4_severe_coupling (W : List (String × ℚ))
    (C : List (String × List String)) (ramp : ℚ → ℚ) (text : String) :
    (0 < getLabel (score (Lexicon.ofData W C) ramp text) "severe_toxicity" →
      0.9 ≤ getLabel (score (Lexicon.ofData W C) ramp text) "toxicity") ∧
    (getLabel (score (Lexicon.ofData W C) ramp text) "severe_toxicity" = 0.85 ↔
      (0.9 ≤ getLabel (score (Lexicon.ofData W C) ramp text) "toxicity" ∧
        (0.6 ≤ (scoreCore (Lexicon.ofData W C) ramp text).obscene ∨
         0.8 ≤ getLabel (score (Lexicon.ofData W C) ramp text) "threat" ∨
         0.8 ≤ (scoreCore (Lexicon.ofData W C) ramp text).identity))) ∧
    (getLabel (score (Lexicon.ofData W C) ramp text) "severe_toxicity" = 0.85 ∨
     getLabel (score (Lexicon.ofData W C) ramp text) "severe_toxicity" = 0) := by
  set lex := Lexicon.ofData W C with hlex
  have htoxiff : (scoreCore lex ramp text).toxicity ≥ 0.9 ↔
      0.9 ≤ getLabel (score lex ramp text) "toxicity" := by
    rw [getLabel_score_toxicity]
    rcases scoreCore_toxicity_cases lex ramp text with hc | hc | hc
    · constructor
      · intro h; linarith
      · intro h
        have := round4_le_grid (x := (scoreCore lex ramp text).toxicity) 8500
          (by rw [show ((8500 : ℤ) : ℚ) / 10000 = 0.85 by norm_num]; exact hc)
        rw [show ((8500 : ℤ) : ℚ) / 10000 = 0.85 by norm_num] at this
        linarith
    · rw [hc, round4_num (0.9 : ℚ) 9000 (by norm_num)]
    · rw [hc, round4_num (0.98 : ℚ) 9800 (by norm_num)]
  have hthriff : (scoreCore lex ramp text).threat ≥ 0.8 ↔
      0.8 ≤ getLabel (score lex ramp text) "threat" := by
    rw [getLabel_score_threat, scoreCore_threat_def]
    split
    · rw [round4_num (0.95 : ℚ) 9500 (by norm_num)]
    · rw [round4_num (0 : ℚ) 0 (by norm_num)]
  have hsev := scoreCore_severe_def lex ramp text
  by_cases hcond : (scoreCore lex ramp text).toxicity ≥ 0.9 ∧
      ((scoreCore lex ramp text).obscene ≥ 0.6 ∨
       (scoreCore lex ramp text).threat ≥ 0.8 ∨
       (scoreCore lex ramp text).identity ≥ 0.8)
  · have hval : getLabel (score lex ramp text) "severe_toxicity" = 0.85 := by
      rw [getLabel_score_severe, hsev, if_pos hcond,
        round4_num (0.85 : ℚ) 8500 (by norm_num)]
    refine ⟨?_, ?_, Or.inl hval⟩
    · intro _; exact htoxiff.mp hcond.1
    · rw [hval]
      simp only [true_iff]
      refine ⟨htoxiff.mp hcond.1, ?_⟩
      rcases hcond.2 with h | h | h
      · exact Or.inl h
      · exact Or.inr (Or.inl (hthriff.mp h))
      · exact Or.inr (Or.inr h)
  · have hval : getLabel (score lex ramp text) "severe_toxicity" = 0 := by
      rw [getLabel_score_severe, hsev, if_neg hcond,
        round4_num (0 : ℚ) 0 (by norm_num)]
    refine ⟨?_, ?_, Or.inr hval⟩
    · intro h; rw [hval] at h; linarith
    · rw [hval]
      constructor
      · intro h; exact absurd h (by norm_num)
      · rintro ⟨htox, hsig⟩
        exfalso
        refine hcond ⟨htoxiff.mpr htox, ?_⟩
        rcases hsig with h | h | h
        · exact Or.inl h
        · exact Or.inr (Or.inl (hthriff.mpr h))
        · exact Or.inr (Or.inr h)

/-- Witness for C4 on a threatening text with an empty lexicon: severe
is 0.85 > 0 and toxicity is 0.9. -/
theorem C4_witness :
    0.9 ≤ getLabel (score (Lexicon.ofData [] []) clampRamp "i will kill you")
      "toxicity" :=
  (C4_severe_coupling [] [] clampRamp "i will kill you").1
    (by with_unfolding_all decide)

/-- The quad computed in step 3 of `score` (toxicity, obscene, insult,
identity before escalation), as a named value for reuse in proofs. -/
def baseQuad (lex : Lexicon) (ramp : ℚ → ℚ) (text : String) : ℚ × ℚ × ℚ × ℚ :=
  if (!(lex.matchHits text).isEmpty) = true then
    ((max 0 (min 0.85 (ramp (((summarize (lex.matchHits text)).map (·.2)).sum)))),
     max 0 (ramp (catSum (summarize (lex.matchHits text)) ["QAS", "SVP", "RE", "DMC"])),
     max 0 (ramp (catSum (summarize (lex.matchHits text)) ["IS", "OM", "PR"])),
     max (if stereoHit text then (0.80 : ℚ) else 0)
       (ramp (catSum (summarize (lex.matchHits text))
         ["ASM", "ASF", "CDS", "RCI", "OR", "AN", "IS"])))
  else (0, 0, 0, if stereoHit text then (0.80 : ℚ) else 0)

theorem baseQuad_fst_nonneg (lex : Lexicon) (ramp : ℚ → ℚ) (text : String) :
    0 ≤ (baseQuad lex ramp text).1 := by
  unfold baseQuad
  split
  · exact le_max_left 0 _
  · exact le_refl 0

theorem baseQuad_fst_le (lex : Lexicon) (ramp : ℚ → ℚ) (text : String) :
    (baseQuad lex ramp text).1 ≤ 0.85 := by
  unfold baseQuad
  split
  · exact max_le (by norm_num) (min_le_left _ _)
  · norm_num

theorem baseQuad_obscene_bounds (lex : Lexicon) (ramp : ℚ → ℚ) (text : String)
    (hr : ∀ x, 0 ≤ ramp x ∧ ramp x ≤ 1) :
    0 ≤ (baseQuad lex ramp text).2.1 ∧ (baseQuad lex ramp text).2.1 ≤ 1 := by
  unfold baseQuad
  split
  · exact ⟨le_max_left 0 _, max_le (by norm_num) (hr _).2⟩
  · exact ⟨le_refl 0, by norm_num⟩

theorem baseQuad_insult_bounds (lex : Lexicon) (ramp : ℚ → ℚ) (text : String)
    (hr : ∀ x, 0 ≤ ramp x ∧ ramp x ≤ 1) :
    0 ≤ (baseQuad lex ramp text).2.2.1 ∧ (baseQuad lex ramp text).2.2.1 ≤ 1 := by
  unfold baseQuad
  split
  · exact ⟨le_max_left 0 _, max_le (by norm_num) (hr _).2⟩
  · exact ⟨le_refl 0, by norm_num⟩

theorem baseQuad_identity_bounds (lex : Lexicon) (ramp : ℚ → ℚ) (text : String)
    (hr : ∀ x, 0 ≤ ramp x ∧ ramp x ≤ 1) :
    0 ≤ (baseQuad lex ramp text).2.2.2 ∧ (baseQuad lex ramp text).2.2.2 ≤ 1 := by
  have hid0 : 0 ≤ (if stereoHit text then (0.80 : ℚ) else 0) ∧
      (if stereoHit text then (0.80 : ℚ) else 0) ≤ 1 := by
    split <;> norm_num
  unfold baseQuad
  split
  · exact ⟨le_trans hid0.1 (le_max_left _ _), max_le hid0.2 (hr _).2⟩
  · exact hid0


/-- `threat` after step 2 of `score`. -/
def threatVal (text : String) : ℚ := if threatHit text then 0.95 else 0

/-- The always-flag condition of step 4. -/
def flagTop (lex : Lexicon) (text : String) : Bool :=
  (summarize (lex.matchHits text)).any (fun p => ALWAYS_FLAG_CATS.contains p.1)

/-- Toxicity after the always-flag escalation. -/
def toxFlagged (lex : Lexicon) (ramp : ℚ → ℚ) (text : String) : ℚ :=
  if flagTop lex text then max (baseQuad lex ramp text).1 0.98
  else (baseQuad lex ramp text).1

/-- Identity after the ASM/ASF/CDS escalation. -/
def identFlagged (lex : Lexicon) (ramp : ℚ → ℚ) (text : String) : ℚ :=
  if (flagTop lex text && (summarize (lex.matchHits text)).any
      (fun p => (["ASM", "ASF", "CDS"] : List String).contains p.1)) = true
  then max (baseQuad lex ramp text).2.2.2 0.90
  else (baseQuad lex ramp text).2.2.2

/-- Toxicity after the threat coupling of step 5. -/
def toxFinal (lex : Lexicon) (ramp : ℚ → ℚ) (text : String) : ℚ :=
  if threatVal text ≥ 0.9 then max (toxFlagged lex ramp text) 0.9
  else toxFlagged lex ramp text

/-- `severe_toxicity` as derived in step 6. -/
def severeVal (lex : Lexicon) (ramp : ℚ → ℚ) (text : String) : ℚ :=
  if toxFinal lex ramp text ≥ 0.9 ∧
      ((baseQuad lex ramp text).2.1 ≥ 0.6 ∨ threatVal text ≥ 0.8 ∨
        identFlagged lex ramp text ≥ 0.8)
  then 0.85 else 0

set_option maxHeartbeats 2000000 in
/-- `scoreCore` decomposed into its component definitions. -/
theorem scoreCore_fields (lex : Lexicon) (ramp : ℚ → ℚ) (text : String) :
    scoreCore lex ramp text =
      ⟨toxFinal lex ramp text, severeVal lex ramp text,
       (baseQuad lex ramp text).2.2.1, threatVal text,
       (baseQuad lex ramp text).2.1, identFlagged lex ramp text⟩ := rfl

theorem pySpace_char_facts (c : Char) (h : isPySpace c = true) :
    isAsciiLetter c = false ∧ (c == apos) = false ∧ Char.toLower c = c := by
  have hc : c = ' ' ∨ c = '\t' ∨ c = '\n' ∨ c = '\r' ∨ c = '\x0b' ∨ c = '\x0c' := by
    simpa [isPySpace, or_assoc] using h
  rcases hc with rfl | rfl | rfl | rfl | rfl | rfl <;>
    exact ⟨by decide, by decide, by decide⟩

theorem tokenizeGo_ws (cs : List Char) (h : ∀ c ∈ cs, isPySpace c = true) :
    tokenizeGo [] false cs = [] := by
  induction cs with
  | nil => rfl
  | cons c rest ih =>
      obtain ⟨hl, ha, -⟩ := pySpace_char_facts c (h c (List.mem_cons_self _ _))
      unfold tokenizeGo
      rw [hl]
      simp only [Bool.false_eq_true, if_false, ha, Bool.false_and,
        List.isEmpty_nil, if_true]
      exact ih (fun d hd => h d (List.mem_cons_of_mem _ hd))

theorem pyTokens_ws (text : String) (h : text.data.all (fun c => isPySpace c) = true) :
    pyTokens text = [] := by
  unfold pyTokens pyLower
  have hall : ∀ c ∈ text.data.map Char.toLower, isPySpace c = true := by
    intro c hc
    rcases List.mem_map.mp hc with ⟨d, hd, rfl⟩
    have hds := (List.all_eq_true.mp h) d hd
    obtain ⟨-, -, hlow⟩ := pySpace_char_facts d hds
    rw [hlow]
    exact hds
  rw [show (String.mk (text.data.map Char.toLower)).data =
    text.data.map Char.toLower from rfl]
  rw [tokenizeGo_ws _ hall]
  rfl

theorem matchHits_of_no_tokens (lex : Lexicon) (text : String)
    (h : pyTokens text = []) : lex.matchHits text = [] := by
  unfold Lexicon.matchHits phraseCands wordCands
  rw [h]
  simp

/-- A literal beginning with a letter never matches at the front of
all-whitespace input. -/
theorem patMatch_lit_ws (c0 : Char) (l cs : List Char)
    (hc0 : isAsciiLetter c0 = true) (h : ∀ c ∈ cs, isPySpace c = true) :
    patMatch (.lit (c0 :: l)) cs = [] := by
  cases cs with
  | nil => rfl
  | cons d rest =>
      have hd := h d (List.mem_cons_self _ _)
      have hne : (c0 == d) = false := by
        have : isAsciiLetter d = false := (pySpace_char_facts d hd).1
        simp only [beq_eq_false_iff_ne, ne_eq]
        intro he
        rw [he] at hc0
        rw [hc0] at this
        exact absurd this (by simp)
      unfold patMatch
      rw [show List.isPrefixOf (c0 :: l) (d :: rest) = false by
        simp [List.isPrefixOf, hne]]
      simp

theorem patMatch_seq_of_nil (p q : Pat) (cs : List Char)
    (h : patMatch p cs = []) : patMatch (.seq p q) cs = [] := by
  simp [patMatch, h]

theorem patMatch_alt_of_nil (p q : Pat) (cs : List Char)
    (hp : patMatch p cs = []) (hq : patMatch q cs = []) :
    patMatch (.alt p q) cs = [] := by
  simp [patMatch, hp, hq]

theorem patHitB_of_nil (p : Pat) (cs : List Char)
    (h : patMatch p cs = []) : patHitB p cs = false := by
  unfold patHitB
  rw [h]
  rfl

theorem threat_pats_ws (cs : List Char) (h : ∀ c ∈ cs, isPySpace c = true) :
    patHitB THREAT_P1 cs = false ∧ patHitB THREAT_P2 cs = false ∧
    patHitB THREAT_P3 cs = false ∧ patHitB THREAT_P4 cs = false := by
  refine ⟨patHitB_of_nil _ _ ?_, patHitB_of_nil _ _ ?_,
    patHitB_of_nil _ _ ?_, patHitB_of_nil _ _ ?_⟩
  · unfold THREAT_P1 IM_GOING_TO I_WILL I_LL
    exact patMatch_seq_of_nil _ _ _ (patMatch_alt_of_nil _ _ _
      (patMatch_seq_of_nil _ _ _ (patMatch_lit_ws 'i' [] cs (by decide) h))
      (patMatch_alt_of_nil _ _ _
        (patMatch_seq_of_nil _ _ _ (patMatch_lit_ws 'i' [] cs (by decide) h))
        (patMatch_lit_ws 'i' [apos, 'l', 'l'] cs (by decide) h)))
  · unfold THREAT_P2
    exact patMatch_seq_of_nil _ _ _
      (patMatch_lit_ws 'k' ['i', 'l', 'l'] cs (by decide) h)
  · unfold THREAT_P3
    exact patMatch_seq_of_nil _ _ _
      (patMatch_lit_ws 's' ['h', 'o', 'o', 't'] cs (by decide) h)
  · unfold THREAT_P4
    exact patMatch_seq_of_nil _ _ _ (patMatch_alt_of_nil _ _ _
      (patMatch_lit_ws 'd' ['o', 'x'] cs (by decide) h)
      (patMatch_lit_ws 's' ['w', 'a', 't'] cs (by decide) h))

theorem searchAux_false (f : List Char → Bool) (cs : List Char)
    (h : ∀ n, f (cs.drop n) = false) : ∀ prev, searchAux f prev cs = false := by
  induction cs with
  | nil =>
      intro prev
      unfold searchAux
      rw [show f [] = false from h 0]
      simp
  | cons c rest ih =>
      intro prev
      unfold searchAux
      rw [show f (c :: rest) = false from h 0]
      simp only [Bool.and_false, Bool.false_or]
      exact ih (fun n => h (n + 1)) (some c)

theorem drop_all_ws (cs : List Char) (h : ∀ c ∈ cs, isPySpace c = true)
    (n : ℕ) : ∀ c ∈ cs.drop n, isPySpace c = true :=
  fun c hc => h c (List.mem_of_mem_drop hc)

theorem threatHit_ws (text : String)
    (h : text.data.all (fun c => isPySpace c) = true) :
    threatHit text = false := by
  unfold threatHit
  have hall : ∀ c ∈ (pyLower text).data, isPySpace c = true := by
    intro c hc
    rcases List.mem_map.mp (by simpa [pyLower] using hc) with ⟨d, hd, rfl⟩
    have hds := (List.all_eq_true.mp h) d hd
    obtain ⟨-, -, hlow⟩ := pySpace_char_facts d hds
    rw [hlow]; exact hds
  have hp := fun n => threat_pats_ws _ (drop_all_ws _ hall n)
  rw [searchAux_false _ _ (fun n => (hp n).1) none,
    searchAux_false _ _ (fun n => (hp n).2.1) none,
    searchAux_false _ _ (fun n => (hp n).2.2.1) none,
    searchAux_false _ _ (fun n => (hp n).2.2.2) none]
  rfl

theorem stereoFrameAt_ws (kw : List Char) (c0 : Char) (kl : List Char)
    (tail : Pat) (cs : List Char) (hkw : kw = c0 :: kl)
    (hc0 : isAsciiLetter c0 = true) (h : ∀ c ∈ cs, isPySpace c = true) :
    stereoFrameAt kw tail cs = none := by
  subst hkw
  cases cs with
  | nil => rfl
  | cons d rest =>
      have hd := h d (List.mem_cons_self _ _)
      have hne : (c0 == d) = false := by
        have : isAsciiLetter d = false := (pySpace_char_facts d hd).1
        simp only [beq_eq_false_iff_ne, ne_eq]
        intro he
        rw [he] at hc0
        rw [hc0] at this
        exact absurd this (by simp)
      unfold stereoFrameAt
      rw [show List.isPrefixOf (c0 :: kl) (d :: rest) = false by
        simp [List.isPrefixOf, hne]]
      simp

theorem searchFirst_none (f : List Char → Option (List Char)) (cs : List Char)
    (h : ∀ n, f (cs.drop n) = none) : ∀ prev, searchFirst f prev cs = none := by
  induction cs with
  | nil =>
      intro prev
      unfold searchFirst
      split
      · exact h 0
      · rfl
  | cons c rest ih =>
      intro prev
      unfold searchFirst
      have h0 : f (c :: rest) = none := h 0
      split
    
      · rename_i hsome
        split at hsome
        · rw [h0] at hsome; exact absurd hsome (by simp)
        · exact absurd hsome (by simp)
      · exact ih (fun n => h (n + 1)) (some c)

theorem stereoHit_ws (text : String)
    (h : text.data.all (fun c => isPySpace c) = true) :
    stereoHit text = false := by
  unfold stereoHit
  have hall : ∀ c ∈ (pyLower text).data, isPySpace c = true := by
    intro c hc
    rcases List.mem_map.mp (by simpa [pyLower] using hc) with ⟨d, hd, rfl⟩
    have hds := (List.all_eq_true.mp h) d hd
    obtain ⟨-, -, hlow⟩ := pySpace_char_facts d hds
    rw [hlow]; exact hds
  rw [searchFirst_none _ _ (fun n => stereoFrameAt_ws _ 'a' ['l', 'l'] _ _
      rfl (by decide) (drop_all_ws _ hall n)) none,
    searchFirst_none _ _ (fun n => stereoFrameAt_ws _ 'e' ['v', 'e', 'r', 'y'] _ _
      rfl (by decide) (drop_all_ws _ hall n)) none]
  rfl

theorem scoreCore_toxicity_eq (lex : Lexicon) (ramp : ℚ → ℚ) (text : String) :
    (scoreCore lex ramp text).toxicity = toxFinal lex ramp text := by
  rw [scoreCore_fields]

theorem scoreCore_severe_eq (lex : Lexicon) (ramp : ℚ → ℚ) (text : String) :
    (scoreCore lex ramp text).severe = severeVal lex ramp text := by
  rw [scoreCore_fields]

theorem scoreCore_insult_eq (lex : Lexicon) (ramp : ℚ → ℚ) (text : String) :
    (scoreCore lex ramp text).insult = (baseQuad lex ramp text).2.2.1 := by
  rw [scoreCore_fields]

theorem scoreCore_threat_eq (lex : Lexicon) (ramp : ℚ → ℚ) (text : String) :
    (scoreCore lex ramp text).threat = threatVal text := by
  rw [scoreCore_fields]

theorem scoreCore_obscene_eq (lex : Lexicon) (ramp : ℚ → ℚ) (text : String) :
    (scoreCore lex ramp text).obscene = (baseQuad lex ramp text).2.1 := by
  rw [scoreCore_fields]

theorem scoreCore_identity_eq (lex : Lexicon) (ramp : ℚ → ℚ) (text : String) :
    (scoreCore lex ramp text).identity = identFlagged lex ramp text := by
  rw [scoreCore_fields]

theorem round4_unit {x : ℚ} (h0 : 0 ≤ x) (h1 : x ≤ 1) :
    0 ≤ round4 x ∧ round4 x ≤ 1 := by
  constructor
  · have h := round4_ge_grid (x := x) 0
      (by rw [show ((0 : ℤ) : ℚ) / 10000 = 0 by norm_num]; exact h0)
    rwa [show ((0 : ℤ) : ℚ) / 10000 = 0 by norm_num] at h
  · have h := round4_le_grid (x := x) 10000
      (by rw [show ((10000 : ℤ) : ℚ) / 10000 = 1 by norm_num]; exact h1)
    rwa [show ((10000 : ℤ) : ℚ) / 10000 = 1 by norm_num] at h

theorem toxFinal_nonneg (lex : Lexicon) (ramp : ℚ → ℚ) (text : String) :
    0 ≤ toxFinal lex ramp text := by
  unfold toxFinal toxFlagged
  have h1 := baseQuad_fst_nonneg lex ramp text
  split
  · exact le_trans (by norm_num : (0 : ℚ) ≤ 0.9) (le_max_right _ _)
  · split
    · exact le_trans h1 (le_max_left _ _)
    · exact h1

theorem toxFinal_le_one (lex : Lexicon) (ramp : ℚ → ℚ) (text : String) :
    toxFinal lex ramp text ≤ 1 := by
  have h := scoreCore_toxicity_cases lex ramp text
  rw [scoreCore_toxicity_eq] at h
  rcases h with h | h | h <;> linarith

theorem severeVal_cases (lex : Lexicon) (ramp : ℚ → ℚ) (text : String) :
    severeVal lex ramp text = 0.85 ∨ severeVal lex ramp text = 0 := by
  unfold severeVal
  split
  · exact Or.inl rfl
  · exact Or.inr rfl

theorem threatVal_cases (text : String) :
    threatVal text = 0.95 ∨ threatVal text = 0 := by
  unfold threatVal
  split
  · exact Or.inl rfl
  · exact Or.inr rfl

theorem identFlagged_bounds (lex : Lexicon) (ramp : ℚ → ℚ) (text : String)
    (hr : ∀ x, 0 ≤ ramp x ∧ ramp x ≤ 1) :
    0 ≤ identFlagged lex ramp text ∧ identFlagged lex ramp text ≤ 1 := by
  have hid := baseQuad_identity_bounds lex ramp text hr
  unfold identFlagged
  split
  · exact ⟨le_trans hid.1 (le_max_left _ _), max_le hid.2 (by norm_num)⟩
  · exact hid

/-- On blank (all-whitespace or empty) input the returned score map is
the zero vector. -/
theorem score_blank (lex : Lexicon) (ramp : ℚ → ℚ) (text : String)
    (hws : text.data.all (fun c => isPySpace c) = true) :
    score lex ramp text =
      [("toxicity", 0), ("severe_toxicity", 0), ("insult", 0),
       ("threat", 0), ("obscene", 0), ("identity_attack", 0)] := by
  have htoks := pyTokens_ws text hws
  have hhits := matchHits_of_no_tokens lex text htoks
  have hthreat := threatHit_ws text hws
  have hstereo := stereoHit_ws text hws
  have hbq : baseQuad lex ramp text = (0, 0, 0, 0) := by
    unfold baseQuad
    rw [hhits, hstereo]
    simp
  have hflag : flagTop lex text = false := by
    unfold flagTop
    rw [hhits]
    rfl
  have htv : threatVal text = 0 := by
    unfold threatVal
    rw [hthreat]
    simp
  have htf : toxFlagged lex ramp text = 0 := by
    unfold toxFlagged
    rw [hflag, hbq]
    simp
  have htfin : toxFinal lex ramp text = 0 := by
    unfold toxFinal
    rw [htv, htf]
    norm_num
  have hid : identFlagged lex ramp text = 0 := by
    unfold identFlagged
    rw [hflag, hbq]
    simp
  have hsev : severeVal lex ramp text = 0 := by
    unfold severeVal
    rw [htfin]
    rw [if_neg]
    rintro ⟨hc, -⟩
    norm_num at hc
  have hr0 : round4 (0 : ℚ) = 0 := round4_num 0 0 (by norm_num)
  unfold score
  rw [scoreCore_toxicity_eq, scoreCore_severe_eq, scoreCore_insult_eq,
    scoreCore_threat_eq, scoreCore_obscene_eq, scoreCore_identity_eq,
    htfin, hsev, htv, hid, hbq]
  norm_num [hr0]

/-- C5: for every input text the scorer returns a map with exactly the
six labels, each value in [0,1]; blank (empty or all-whitespace) input
yields the zero vector.  `ramp` is assumed to land in [0,1], as the real
`1 - exp(-0.6 max(0,x))` does. -/
theorem C5_six_labels_bounded_blank_zero (W : List (String × ℚ))
    (C : List (String × List String)) (ramp : ℚ → ℚ) (text : String)
    (hr : ∀ x, 0 ≤ ramp x ∧ ramp x ≤ 1) :
    ((score (Lexicon.ofData W C) ramp text).map (·.1) =
      ["toxicity", "severe_toxicity", "insult", "threat", "obscene",
       "identity_attack"]) ∧
    (∀ kv ∈ score (Lexicon.ofData W C) ramp text, 0 ≤ kv.2 ∧ kv.2 ≤ 1) ∧
    (text.data.all (fun c => isPySpace c) = true →
      score (Lexicon.ofData W C) ramp text =
        [("toxicity", 0), ("severe_toxicity", 0), ("insult", 0),
         ("threat", 0), ("obscene", 0), ("identity_attack", 0)]) := by
  set lex := Lexicon.ofData W C with hlex
  refine ⟨rfl, ?_, score_blank lex ramp text⟩
  intro kv hkv
  have hbounds : ∀ v ∈ [(scoreCore lex ramp text).toxicity,
      (scoreCore lex ramp text).severe, (scoreCore lex ramp text).insult,
      (scoreCore lex ramp text).threat, (scoreCore lex ramp text).obscene,
      (scoreCore lex ramp text).identity], 0 ≤ v ∧ v ≤ 1 := by
    intro v hv
    simp only [List.mem_cons, List.mem_singleton, List.not_mem_nil,
      or_false] at hv
    rcases hv with rfl | rfl | rfl | rfl | rfl | rfl
    · rw [scoreCore_toxicity_eq]
      exact ⟨toxFinal_nonneg lex ramp text, toxFinal_le_one lex ramp text⟩
    · rw [scoreCore_severe_eq]
      rcases severeVal_cases lex ramp text with h | h <;> rw [h] <;>
        norm_num
    · rw [scoreCore_insult_eq]
      exact baseQuad_insult_bounds lex ramp text hr
    · rw [scoreCore_threat_eq]
      rcases threatVal_cases text with h | h <;> rw [h] <;> norm_num
    · rw [scoreCore_obscene_eq]
      exact baseQuad_obscene_bounds lex ramp text hr
    · rw [scoreCore_identity_eq]
      exact identFlagged_bounds lex ramp text hr
  simp only [score, List.mem_cons, List.mem_singleton, List.not_mem_nil,
    or_false] at hkv
  rcases hkv with rfl | rfl | rfl | rfl | rfl | rfl <;>
    exact round4_unit (hbounds _ (by simp)).1 (hbounds _ (by simp)).2

theorem clampRamp_bounds : ∀ x : ℚ, 0 ≤ clampRamp x ∧ clampRamp x ≤ 1 :=
  fun x => ⟨le_max_left 0 _, max_le (by norm_num) (min_le_left 1 x)⟩

/-- Witness for C5 at a small lexicon: bounded scores on a real text and
the zero vector on whitespace. -/
theorem C5_witness :
    (∀ kv ∈ score (Lexicon.ofData [("bad", 1)] [("bad", ["IS"])]) clampRamp
      "so bad", 0 ≤ kv.2 ∧ kv.2 ≤ 1) ∧
    score (Lexicon.ofData [("bad", 1)] [("bad", ["IS"])]) clampRamp " \t " =
      [("toxicity", 0), ("severe_toxicity", 0), ("insult", 0),
       ("threat", 0), ("obscene", 0), ("identity_attack", 0)] := by
  constructor
  · exact fun kv hkv => (C5_six_labels_bounded_blank_zero [("bad", 1)]
      [("bad", ["IS"])] clampRamp "so bad" clampRamp_bounds).2.1 kv hkv
  · exact (C5_six_labels_bounded_blank_zero [("bad", 1)]
      [("bad", ["IS"])] clampRamp " \t " clampRamp_bounds).2.2
      (by with_unfolding_all decide)

/-- Every element of `simpleLemmasL t` is `t` itself or a strictly
shorter candidate of length ≥ 2. -/
theorem simpleLemmasL_mem_shape (t : List Char) :
    ∀ l ∈ simpleLemmasL t, l = t ∨ (2 ≤ l.length ∧ l.length < t.length) := by
  have hfold : ∀ (sufs : List (List Char)) (acc : List (List Char)),
      (∀ suf ∈ sufs, 1 ≤ suf.length) →
      (∀ l ∈ acc, l = t ∨ (2 ≤ l.length ∧ l.length < t.length)) →
      ∀ l ∈ sufs.foldl (fun acc suf =>
        if suf.length + 1 < t.length && suf.isSuffixOf t then
          acc ++ [t.take (t.length - suf.length)]
        else acc) acc,
        l = t ∨ (2 ≤ l.length ∧ l.length < t.length) := by
    intro sufs
    induction sufs with
    | nil => intro acc _ hacc l hl; exact hacc l hl
    | cons suf rest ih =>
        intro acc hsufs hacc l hl
        rw [List.foldl_cons] at hl
        refine ih _ (fun s hs => hsufs s (List.mem_cons_of_mem _ hs)) ?_ l hl
        intro m hm
        split at hm
        · rename_i hguard
          rcases List.mem_append.mp hm with hm | hm
          · exact hacc m hm
          · rw [List.mem_singleton.mp hm]
            have hg : suf.length + 1 < t.length := by
              have := (Bool.and_eq_true _ _).mp hguard
              simpa using this.1
            have hs1 : 1 ≤ suf.length := hsufs suf (List.mem_cons_self _ _)
            right
            rw [List.length_take]
            constructor <;> omega
        · exact hacc m hm
  intro l hl
  unfold simpleLemmasL at hl
  refine hfold SUFFIXES _ (by decide) ?_ l hl
  intro m hm
  split at hm
  · rename_i hguard
    rcases List.mem_append.mp hm with hm | hm
    · exact Or.inl (List.mem_singleton.mp hm)
    · rw [List.mem_singleton.mp hm]
      have hg : 3 < t.length := by
        have := (Bool.and_eq_true _ _).mp hguard
        simpa using this.1
      right
      rw [List.length_append, List.length_take]
      simp only [List.length_singleton]
      constructor <;> omega
  · exact Or.inl (List.mem_singleton.mp hm)

/-- C9: if `"kill"` is a registered single-word term then the four
inflected forms all produce a hit keyed `"kill"`; and the
`len(t) > len(suf)+1` guard means a token no longer than the suffix
plus one character never yields that suffix-stripped candidate — in
particular a token of length ≤ 2 generates only itself, so it can match
only if it is itself registered. -/
theorem C9_inflection_matching :
    (∀ (W : List (String × ℚ)) (C : List (String × List String)),
      (Lexicon.ofData W C).words.contains "kill" = true →
      ∀ w ∈ (["killing", "killed", "kills", "killer"] : List String),
        "kill" ∈ keysOf ((Lexicon.ofData W C).matchHits w)) ∧
    (∀ (t suf : List Char), suf ∈ SUFFIXES → suf.isSuffixOf t = true →
      t.length ≤ suf.length + 1 →
      t.take (t.length - suf.length) ∉ simpleLemmasL t) ∧
    (_simple_lemmas "as" = ["as"]) := by
  refine ⟨?_, ?_, by decide⟩
  · intro W C hcontains w hw
    have main : ∀ (text tok : String), tok ∈ pyTokens text →
        "kill" ∈ _simple_lemmas tok →
        "kill" ∈ keysOf ((Lexicon.ofData W C).matchHits text) := by
      intro text tok htok hlem
      unfold Lexicon.matchHits
      rw [foldl_hinsert_keys]
      refine Or.inr ⟨(Lexicon.ofData W C).mkHit "kill" "word",
        List.mem_append.mpr (Or.inr ?_)⟩
      exact (wordCands_mem _ _ _ _).mpr ⟨tok, htok, hlem, hcontains, rfl⟩
    simp only [List.mem_cons, List.mem_singleton, List.not_mem_nil,
      or_false] at hw
    rcases hw with rfl | rfl | rfl | rfl
    · exact main "killing" "killing" (by decide) (by decide)
    · exact main "killed" "killed" (by decide) (by decide)
    · exact main "kills" "kills" (by decide) (by decide)
    · exact main "killer" "killer" (by decide) (by decide)
  · intro t suf hsuf hsfx hlen hmem
    have hs1 : 1 ≤ suf.length := by
      simp only [SUFFIXES, List.mem_cons, List.mem_singleton,
        List.not_mem_nil, or_false] at hsuf
      rcases hsuf with rfl | rfl | rfl | rfl | rfl | rfl <;> decide
    have hle : suf.length ≤ t.length := by
      have : suf <:+ t := by
        rwa [← List.isSuffixOf_iff_suffix]
      exact this.length_le
    rcases simpleLemmasL_mem_shape t _ hmem with heq | ⟨h2, hlt⟩
    · have : (t.take (t.length - suf.length)).length = t.length := by
        rw [heq]
      rw [List.length_take] at this
      omega
    · rw [List.length_take] at h2
      omega

/-- Witness for C9: the one-word lexicon `{kill}` matches "killing",
and the token "as" yields no "a" candidate for suffix "s". -/
theorem C9_witness :
    "kill" ∈ keysOf ((Lexicon.ofData [("kill", 1)] []).matchHits "killing") ∧
    ['a'] ∉ simpleLemmasL ['a', 's'] := by
  constructor
  · exact C9_inflection_matching.1 [("kill", 1)] []
      (by with_unfolding_all decide) "killing" (by decide)
  · exact C9_inflection_matching.2.1 ['a', 's'] ['s'] (by decide) (by decide)
      (by decide)

/-- The tiny lexicon used to exhibit C6's failure. -/
def lexC6 : Lexicon := Lexicon.ofData [("bad", 1)] [("bad", ["IS"])]

/-- C6, counterexample: `"bad kill you"` matches the flagged term
`"bad"` and triggers the threat heuristic (toxicity 0.9); inserting
another `"bad"` between `"kill"` and `"you"` breaks the
`kill\s+(you|u|ya)` pattern, and toxicity drops to 0.85 — strictly
smaller.  (The ramp is instantiated with a monotone [0,1]-valued
function; with the real `1 - exp(-0.6 x)` ramp the drop is from 0.9 to
`round4(1 - exp(-1.2)) ≈ 0.6988`, a drop as well.) -/
theorem C6_counterexample :
    (∃ h : Hit, ("bad", h) ∈ lexC6.matchHits "bad kill you") ∧
    threatHit "bad kill you" = true ∧
    threatHit "bad kill bad you" = false ∧
    getLabel (score lexC6 clampRamp "bad kill bad you") "toxicity" <
      getLabel (score lexC6 clampRamp "bad kill you") "toxicity" := by
  refine ⟨⟨lexC6.mkHit "bad" "word", ?_⟩, ?_, ?_, ?_⟩
  · with_unfolding_all decide
  · with_unfolding_all decide
  · with_unfolding_all decide
  · with_unfolding_all decide

theorem dget_getD_nonneg (W : List (String × ℚ))
    (hW : ∀ kv ∈ W, 0 ≤ kv.2) (k : String) : 0 ≤ (dget W k).getD 1 := by
  unfold dget
  cases hf : W.find? (fun p => p.1 == k) with
  | none => simp
  | some p => exact hW p (List.mem_of_find?_eq_some hf)

/-- Appending one token can only enlarge the matched key set. -/
theorem matchHits_keys_append (W : List (String × ℚ))
    (C : List (String × List String)) (text text' w : String)
    (htoks : pyTokens text' = pyTokens text ++ [w]) :
    ∀ k, k ∈ keysOf ((Lexicon.ofData W C).matchHits text) →
      k ∈ keysOf ((Lexicon.ofData W C).matchHits text') := by
  intro k hk
  have hlen := ofData_phrase_len_le W C
  rw [matchHits_key_iff _ hlen] at hk ⊢
  rcases hk with ⟨pt, hpt, hk, hl2, s, t, hseg⟩ | ⟨hc, tok, htok, hlem⟩
  · refine Or.inl ⟨pt, hpt, hk, hl2, s, t ++ [w], ?_⟩
    rw [htoks, hseg, List.append_assoc, List.append_assoc]
  · exact Or.inr ⟨hc, tok, by rw [htoks]; exact List.mem_append_left _ htok,
      hlem⟩

/-- Entry transport: a hit present for some term in the original text is
present (with the same categories and weight) after appending. -/
theorem matchHits_entry_append (W : List (String × ℚ))
    (C : List (String × List String)) (text text' w : String)
    (htoks : pyTokens text' = pyTokens text ++ [w]) (k : String) (h : Hit)
    (hmem : (k, h) ∈ (Lexicon.ofData W C).matchHits text) :
    ∃ h' : Hit, (k, h') ∈ (Lexicon.ofData W C).matchHits text' ∧
      h'.categories = h.categories ∧ h'.weight = h.weight := by
  have hk : k ∈ keysOf ((Lexicon.ofData W C).matchHits text) :=
    List.mem_map.mpr ⟨(k, h), hmem, rfl⟩
  rcases keysOf_mem_exists _ _
    (matchHits_keys_append W C text text' w htoks k hk) with ⟨h', hmem'⟩
  obtain ⟨hc, hw⟩ := matchHits_entry_val _ text k h hmem
  obtain ⟨hc', hw'⟩ := matchHits_entry_val _ text' k h' hmem'
  exact ⟨h', hmem', by rw [hc, hc'], by rw [hw, hw']⟩

/-- The total per-category weight mass never shrinks when a token is
appended, provided the stored weights are nonnegative. -/
theorem sumVals_summarize_append (W : List (String × ℚ))
    (C : List (String × List String)) (text text' w : String)
    (htoks : pyTokens text' = pyTokens text ++ [w])
    (hW : ∀ kv ∈ W, 0 ≤ kv.2) :
    ((summarize ((Lexicon.ofData W C).matchHits text)).map (·.2)).sum ≤
    ((summarize ((Lexicon.ofData W C).matchHits text')).map (·.2)).sum := by
  set lex := Lexicon.ofData W C with hlex
  have hf : ∀ (u : String), (0 : ℚ) ≤
      (((dget lex.categories u).getD []).length : ℚ) *
        (dget lex.weights u).getD 1 := by
    intro u
    have h1 : (0 : ℚ) ≤ (((dget lex.categories u).getD []).length : ℚ) := by
      positivity
    have h2 : (0 : ℚ) ≤ (dget lex.weights u).getD 1 :=
      dget_getD_nonneg W hW u
    exact mul_nonneg h1 h2
  rw [sumVals_summarize, sumVals_summarize,
    entries_sum_eq_finset _ _
      (fun u => (((dget lex.categories u).getD []).length : ℚ) *
        (dget lex.weights u).getD 1)
      (matchHits_keys_nodup lex text) (fun kv hkv => by
        obtain ⟨hc, hw⟩ := matchHits_entry_val lex text kv.1 kv.2 hkv
        rw [hc, hw]),
    entries_sum_eq_finset _ _
      (fun u => (((dget lex.categories u).getD []).length : ℚ) *
        (dget lex.weights u).getD 1)
      (matchHits_keys_nodup lex text') (fun kv hkv => by
        obtain ⟨hc, hw⟩ := matchHits_entry_val lex text' kv.1 kv.2 hkv
        rw [hc, hw])]
  refine Finset.sum_le_sum_of_subset_of_nonneg ?_ (fun u _ _ => hf u)
  intro u hu
  rw [List.mem_toFinset] at hu ⊢
  exact matchHits_keys_append W C text text' w htoks u hu

/-- The always-flag condition is monotone under appending a token. -/
theorem flagTop_append (W : List (String × ℚ))
    (C : List (String × List String)) (text text' w : String)
    (htoks : pyTokens text' = pyTokens text ++ [w])
    (hflag : flagTop (Lexicon.ofData W C) text = true) :
    flagTop (Lexicon.ofData W C) text' = true := by
  unfold flagTop at hflag ⊢
  rcases (perCat_any_flag_iff _).mp hflag with ⟨kv, hkv, c, hc, hcf⟩
  rcases matchHits_entry_append W C text text' w htoks kv.1 kv.2 hkv with
    ⟨h', hmem', hcats, -⟩
  exact (perCat_any_flag_iff _).mpr ⟨(kv.1, h'), hmem', c, by rw [hcats]; exact hc, hcf⟩

/-- C6 (amended): appending a further occurrence of an already-matched
term to the text as one more token never decreases toxicity, provided
the stored weights are nonnegative (as the artifact contract requires)
and the threat heuristic still fires on the extended text whenever it
fired on the original.  (The counterexample shows the unqualified claim
fails when an insertion splits a threat phrase.) -/
theorem C6_amended_append_never_decreases (W : List (String × ℚ))
    (C : List (String × List String)) (ramp : ℚ → ℚ)
    (text text' term : String)
    (hmono : ∀ x y : ℚ, x ≤ y → ramp x ≤ ramp y)
    (hW : ∀ kv ∈ W, 0 ≤ kv.2)
    (hmatched : term ∈ keysOf ((Lexicon.ofData W C).matchHits text))
    (htoks : pyTokens text' = pyTokens text ++ [term])
    (hthreat : threatHit text = true → threatHit text' = true) :
    getLabel (score (Lexicon.ofData W C) ramp text) "toxicity" ≤
      getLabel (score (Lexicon.ofData W C) ramp text') "toxicity" := by
  set lex := Lexicon.ofData W C with hlex
  have hne1 : lex.matchHits text ≠ [] := by
    intro h
    rw [h] at hmatched
    exact absurd hmatched (by simp [keysOf])
  have hterm' : term ∈ keysOf (lex.matchHits text') :=
    matchHits_keys_append W C text text' term htoks term hmatched
  have hne2 : lex.matchHits text' ≠ [] := by
    intro h
    rw [h] at hterm'
    exact absurd hterm' (by simp [keysOf])
  have hbt : ∀ (l : List (String × Hit)), l ≠ [] → (!(l.isEmpty)) = true := by
    intro l hl
    cases l with
    | nil => exact absurd rfl hl
    | cons a l => rfl
  have htot := sumVals_summarize_append W C text text' term htoks hW
  have hb1 : (baseQuad lex ramp text).1 ≤ (baseQuad lex ramp text').1 := by
    unfold baseQuad
    rw [if_pos (hbt _ hne1), if_pos (hbt _ hne2)]
    exact max_le_max (le_refl 0)
      (min_le_min (le_refl _) (hmono _ _ htot))
  have htf : toxFlagged lex ramp text ≤ toxFlagged lex ramp text' := by
    unfold toxFlagged
    cases hf1 : flagTop lex text with
    | true =>
        rw [flagTop_append W C text text' term htoks hf1]
        simp only [if_true]
        exact max_le_max hb1 (le_refl _)
    | false =>
        simp only [Bool.false_eq_true, if_false]
        cases hf2 : flagTop lex text' with
        | true =>
            simp only [if_true]
            exact le_trans hb1 (le_max_left _ _)
        | false =>
            simp only [Bool.false_eq_true, if_false]
            exact hb1
  have hfin : toxFinal lex ramp text ≤ toxFinal lex ramp text' := by
    unfold toxFinal threatVal
    cases ht1 : threatHit text with
    | true =>
        rw [hthreat ht1]
        simp only [if_true]
        rw [if_pos (by norm_num : (0.95 : ℚ) ≥ 0.9),
          if_pos (by norm_num : (0.95 : ℚ) ≥ 0.9)]
        exact max_le_max htf (le_refl _)
    | false =>
        simp only [Bool.false_eq_true, if_false]
        rw [if_neg (by norm_num : ¬(0 : ℚ) ≥ 0.9)]
        cases ht2 : threatHit text' with
        | true =>
            simp only [if_true]
            rw [if_pos (by norm_num : (0.95 : ℚ) ≥ 0.9)]
            exact le_trans htf (le_max_left _ _)
        | false =>
            simp only [Bool.false_eq_true, if_false]
            rw [if_neg (by norm_num : ¬(0 : ℚ) ≥ 0.9)]
            exact htf
  rw [getLabel_score_toxicity, getLabel_score_toxicity,
    scoreCore_toxicity_eq, scoreCore_toxicity_eq]
  exact round4_mono hfin

/-- Witness for C6's amended theorem: appending a second `"bad"` to
`"so bad"` keeps toxicity non-decreasing. -/
theorem C6_amended_witness :
    getLabel (score (Lexicon.ofData [("bad", 1)] [("bad", ["IS"])])
      clampRamp "so bad") "toxicity" ≤
    getLabel (score (Lexicon.ofData [("bad", 1)] [("bad", ["IS"])])
      clampRamp "so bad bad") "toxicity" := by
  refine C6_amended_append_never_decreases [("bad", 1)] [("bad", ["IS"])]
    clampRamp "so bad" "so bad bad" "bad" ?_ ?_ ?_ ?_ ?_
  · intro x y hxy
    exact max_le_max (le_refl 0) (min_le_min (le_refl 1) hxy)
  · intro kv hkv
    simp only [List.mem_singleton] at hkv
    rw [hkv]
    norm_num
  · with_unfolding_all decide
  · with_unfolding_all decide
  · intro h
    rw [show threatHit "so bad" = false by with_unfolding_all decide] at h
    exact absurd h (by simp)
